import Mathlib

/-!
# Verification of the ReAct agent core (response codec, message tree, agent loop)

A shallow embedding, in Lean 4, of the core of a minimal ReAct-style agent:

* `ResponseParser.parse` and its wire format (src/response_parser.py),
* the message-history tree and its operations (src/simple_agent.py),
* the `finish` guard (src/simple_agent.py, `ReactAgent.finish`),
* the main loop `ReactAgent.run` (src/simple_agent.py), and
* the context renderer of the older variant (src/agent.py,
  `ReactAgent.message_id_to_context`), used where the two variants diverge.

Python strings are modelled as `List Char` (with `String` wrappers where the
agent-level code reads better that way); Python exceptions are modelled with
`Except`, and an exception handler in the source corresponds to an explicit
`match` on the `Except` value, so that which errors escape a function is
visible in its type.  The LLM backend is modelled as an oracle indexed by the
number of calls made so far, and the git subprocess environment consulted by
`finish` is modelled by an explicit `GitEnv` record.  Wall-clock timestamps
are external input with no behavioural role; the model fixes them to 0.

Long prompt/guidance string constants from the source that have no influence
on control flow (system prompts, pivot-strategy texts, error-message wording
around interpolated values) are transcribed in abbreviated or lightly
adjusted form; no theorem depends on their exact text.
-/

/-! ## Python string primitives

Faithful models of the Python `str` operations the source uses:
`strip`/`lstrip`/`rstrip` (ASCII whitespace), `rfind` with an end bound,
`split(sep)`, `split(sep, 1)`, `splitlines`, and substring search.
-/

/-- Python whitespace for `strip` (the ASCII cases, which are the only ones
the agent protocol produces). -/
def isPySpace (c : Char) : Bool :=
  c = ' ' || c = '\t' || c = '\n' || c = '\r' || c = '\x0b' || c = '\x0c'

/-- Python `str.lstrip()`. -/
def pyLStrip (s : List Char) : List Char := s.dropWhile isPySpace

/-- Python `str.rstrip()`. -/
def pyRStrip (s : List Char) : List Char := (s.reverse.dropWhile isPySpace).reverse

/-- Python `str.strip()`. -/
def pyStrip (s : List Char) : List Char := pyRStrip (pyLStrip s)

/-- `leadsWith n h` is true when `n` is an initial segment of `h`
(used to model an occurrence of a substring at a given index). -/
def leadsWith : List Char → List Char → Bool
  | [], _ => true
  | _ :: _, [] => false
  | a :: as, b :: bs => a = b && leadsWith as bs

/-- `containsSub n h` is true when `n` occurs somewhere inside `h`
(Python `n in h`). -/
def containsSub (n : List Char) : List Char → Bool
  | [] => leadsWith n []
  | c :: t => leadsWith n (c :: t) || containsSub n t

/-- Index of the first occurrence of `sep` in `s` (Python `str.find`),
as an `Option`. -/
def findSub (sep : List Char) : List Char → Option Nat
  | [] => if leadsWith sep [] then some 0 else none
  | c :: t => if leadsWith sep (c :: t) then some 0 else (findSub sep t).map (· + 1)

/-- Fuelled worker for `pySplit`; each step removes at least one character
when `sep` is nonempty, so `s.length + 1` fuel suffices. -/
def pySplitGo (sep : List Char) : Nat → List Char → List (List Char)
  | 0, s => [s]
  | fuel + 1, s =>
    match findSub sep s with
    | none => [s]
    | some i => s.take i :: pySplitGo sep fuel (s.drop (i + sep.length))

/-- Python `str.split(sep)` for a nonempty separator: split on each
non-overlapping occurrence, scanning left to right. -/
def pySplit (sep s : List Char) : List (List Char) :=
  if sep = [] then [s] else pySplitGo sep (s.length + 1) s

/-- First line of a string: the characters before the first newline
(the first component of Python `s.split(chr(10), 1)`). -/
def takeLine (s : List Char) : List Char := s.takeWhile (· ≠ '\n')

/-- The remainder after the first newline, if any (the optional second
component of Python `s.split(chr(10), 1)`). -/
def dropLine (s : List Char) : Option (List Char) :=
  match s.dropWhile (· ≠ '\n') with
  | [] => none
  | _ :: t => some t

/-- Downward search worker for `pyRFind`: the greatest index `≤ i` at which
`needle` occurs. -/
def rfindFrom (needle hay : List Char) : Nat → Option Nat
  | 0 => if leadsWith needle hay then some 0 else none
  | i + 1 =>
    if leadsWith needle (hay.drop (i + 1)) then some (i + 1)
    else rfindFrom needle hay i

/-- Python `str.rfind(needle, 0, endPos)`: the greatest `i` with
`i + needle.length ≤ endPos` at which `needle` occurs, if any. -/
def pyRFind (needle hay : List Char) (endPos : Nat) : Option Nat :=
  if needle.length ≤ endPos then rfindFrom needle hay (endPos - needle.length)
  else none

/-- Fuelled worker for `pySplitLines`; each step removes at least one
character, so `s.length` fuel suffices. -/
def pySplitLinesGo : Nat → List Char → List (List Char)
  | 0, s => [s]
  | fuel + 1, s =>
    let l := s.takeWhile (· ≠ '\n')
    match s.dropWhile (· ≠ '\n') with
    | [] => [l]
    | _ :: t => if t = [] then [l] else l :: pySplitLinesGo fuel t

/-- Python `str.splitlines()` restricted to the newline terminator (the only
line terminator the protocol produces): no trailing empty line. -/
def pySplitLines (s : List Char) : List (List Char) :=
  if s = [] then [] else pySplitLinesGo s.length s

/-- Python `int(s)` on a string: optional surrounding whitespace, optional
sign, then at least one decimal digit.  `none` models a raised `ValueError`. -/
def pyInt (s : List Char) : Option Int :=
  let t := pyStrip s
  let (neg, ds) :=
    match t with
    | '-' :: r => (true, r)
    | '+' :: r => (false, r)
    | r => (false, r)
  if ds = [] || ¬ ds.all (·.isDigit) then none
  else
    let n := ds.foldl (fun a c => a * 10 + (c.toNat - '0'.toNat)) 0
    some (if neg then -(n : Int) else (n : Int))

/-- Python `dict` assignment `d[k] = v`: overwrite in place when the key is
present, otherwise append (insertion-ordered dict). -/
def pyDictInsert (d : List (List Char × List Char)) (k v : List Char) :
    List (List Char × List Char) :=
  if d.any (·.1 = k) then d.map (fun p => if p.1 = k then (k, v) else p)
  else d ++ [(k, v)]

/-- Association-list lookup (Python `d[k]` / `k in d` on an
insertion-ordered dict whose keys are unique). -/
def dictFind {α : Type} (d : List (String × α)) (k : String) : Option α :=
  match d with
  | [] => none
  | (k', v) :: t => if k' = k then some v else dictFind t k

/-- In-place update of a list element at an index
(Python `l[i] = f(l[i])` / mutating `l[i]`). -/
def listModify {α : Type} (f : α → α) : Nat → List α → List α
  | _, [] => []
  | 0, a :: t => f a :: t
  | n + 1, a :: t => a :: listModify f n t

/-! ## Response format codec (src/response_parser.py) -/

namespace ResponseParser

/-- `ResponseParser.BEGIN_CALL`. -/
def BEGIN_CALL : String := "----BEGIN_FUNCTION_CALL----"

/-- `ResponseParser.END_CALL`. -/
def END_CALL : String := "----END_FUNCTION_CALL----"

/-- `ResponseParser.ARG_SEP`. -/
def ARG_SEP : String := "----ARG----"

/-- `BEGIN_CALL` as a character list. -/
def BC : List Char := BEGIN_CALL.toList

/-- `END_CALL` as a character list. -/
def EC : List Char := END_CALL.toList

/-- `ARG_SEP` as a character list. -/
def AS : List Char := ARG_SEP.toList

/-- `ResponseParser.response_format`: the canonical template text injected
into the system prompt (after Python f-string substitution). -/
def response_format : String :=
  "\nyour_thoughts_here\n...\n----BEGIN_FUNCTION_CALL----\nfunction_name\n----ARG----\nparam_name_1\nparam_value_1 (can be multiline, NO ----ARG---- separator between name and value!)\n----ARG----\nparam_name_2\nparam_value_2 (can be multiline)\n----END_FUNCTION_CALL----\n\nIMPORTANT: Each argument block starts with ----ARG----, then the parameter NAME on the first line, \nthen the parameter VALUE on subsequent lines. Do NOT put ----ARG---- between name and value!\n\nExample:\n----BEGIN_FUNCTION_CALL----\nrun_bash_cmd\n----ARG----\ncommand\nls -la\n----END_FUNCTION_CALL----\n"

/-- The result dictionary of `ResponseParser.parse`: thought, function name,
and the (insertion-ordered) argument mapping. -/
structure ParseResult where
  thought : List Char
  name : List Char
  arguments : List (List Char × List Char)
deriving DecidableEq, Repr

/-- The argument-collection loop of `parse` (`for i in range(1, len(parts))`):
strip each block, skip empty blocks, first line is the name (stripped), the
remainder after the first newline is the value (right-stripped; empty when
there is no remainder); blank names are skipped, and names are inserted into
the dict in order. -/
def parseArgs : List (List Char) → List (List Char × List Char) →
    List (List Char × List Char)
  | [], acc => acc
  | part :: rest, acc =>
    let arg_block := pyStrip part
    if arg_block = [] then parseArgs rest acc
    else
      let arg_name := pyStrip (takeLine arg_block)
      let arg_value :=
        match dropLine arg_block with
        | none => []
        | some r => pyRStrip r
      if arg_name = [] then parseArgs rest acc
      else parseArgs rest (pyDictInsert acc arg_name arg_value)

/-- `ResponseParser.parse`, translated clause by clause from the source:
`rfind` the last `END_CALL`, `rfind` the last `BEGIN_CALL` before it, the
text before the begin marker (stripped) is the thought, the stripped text
between the markers is the call body, which is split on `ARG_SEP`; the first
segment (stripped) is the function name (an error when blank), and the
remaining segments are parsed as arguments.  Each raised `ValueError` in the
source is an `Except.error` here. -/
def parse (text : List Char) : Except String ParseResult :=
  match pyRFind EC text text.length with
  | none => .error "Missing ----END_FUNCTION_CALL---- marker in response"
  | some end_pos =>
    match pyRFind BC text end_pos with
    | none => .error "Missing ----BEGIN_FUNCTION_CALL---- marker in response"
    | some begin_pos =>
      let thought := pyStrip (text.take begin_pos)
      let call_start := begin_pos + BC.length
      let call_body := pyStrip ((text.take end_pos).drop call_start)
      match pySplit AS call_body with
      | [] => .error "Function call body is empty"
      | p0 :: rest =>
        let function_name := pyStrip p0
        if function_name = [] then .error "Function name is empty"
        else .ok ⟨thought, function_name, parseArgs rest []⟩

/-- `parse` on `String` values. -/
def parseS (text : String) : Except String ParseResult := parse text.toList

/-- The canonical rendering of one argument block in the template:
the separator line, the name line, then the value followed by a newline. -/
def encodeArg (k v : List Char) : List Char :=
  AS ++ '\n' :: (k ++ '\n' :: (v ++ ['\n']))

/-- Rendering a function name and argument mapping in the canonical
wire-format template of `response_format` (the part from the begin marker to
the end marker; free-form thought text may precede it). -/
def encode (n : List Char) (args : List (List Char × List Char)) : List Char :=
  BC ++ '\n' :: (n ++ '\n' :: ((args.map (fun p => encodeArg p.1 p.2)).flatten ++ EC))

/-- The well-formedness conditions on a rendered call under which the codec
round-trips: the name is nonempty, strip-invariant and marker-free; each
argument name is nonempty, strip-invariant, newline-free and marker-free;
each argument value is rstrip-invariant and contains neither the argument
separator nor the begin marker anywhere; and argument names are distinct. -/
def WFName (n : List Char) : Prop :=
  pyStrip n = n ∧ n ≠ [] ∧ containsSub AS n = false ∧ containsSub BC n = false

/-- Well-formedness of one argument pair (see `WFName`). -/
def WFArg (k v : List Char) : Prop :=
  pyStrip k = k ∧ k ≠ [] ∧ '\n' ∉ k ∧
  containsSub AS k = false ∧ containsSub BC k = false ∧
  pyRStrip v = v ∧ containsSub AS v = false ∧ containsSub BC v = false

/-- Well-formedness of a whole rendered call (see `WFName`, `WFArg`). -/
def WFCall (n : List Char) (args : List (List Char × List Char)) : Prop :=
  WFName n ∧ (∀ p ∈ args, WFArg p.1 p.2) ∧ (args.map Prod.fst).Nodup

instance (n : List Char) : Decidable (WFName n) := by
  unfold WFName; infer_instance

instance (k v : List Char) : Decidable (WFArg k v) := by
  unfold WFArg; infer_instance

instance (n : List Char) (args : List (List Char × List Char)) :
    Decidable (WFCall n args) := by
  unfold WFCall; infer_instance

end ResponseParser

/-! ## Response normalization and argument sanitization (src/simple_agent.py) -/

/-- Consume a maximal run of consecutive end markers (worker for the
`re.sub` collapse in `_normalize_response`). -/
def eatEnds : Nat → List Char → List Char
  | 0, s => s
  | fuel + 1, s =>
    if leadsWith ResponseParser.EC s then eatEnds fuel (s.drop ResponseParser.EC.length)
    else s

/-- Fuelled worker modelling
`re.sub(r"(----END_FUNCTION_CALL----)+", "----END_FUNCTION_CALL----", s)`:
each maximal run of consecutive end markers is replaced by a single one. -/
def collapseEndsGo : Nat → List Char → List Char
  | 0, s => s
  | _ + 1, [] => []
  | fuel + 1, c :: t =>
    if leadsWith ResponseParser.EC (c :: t) then
      ResponseParser.EC ++ collapseEndsGo fuel (eatEnds (fuel + 1) ((c :: t).drop ResponseParser.EC.length))
    else c :: collapseEndsGo fuel t

/-- The end-marker collapse of `_normalize_response`. -/
def collapseEnds (s : List Char) : List Char := collapseEndsGo s.length s

/-- `ReactAgent._normalize_response`: normalize any line whose stripped form
starts with the argument-separator stem to the exact separator, then collapse
duplicated end markers. -/
def normalizeResponse (s : String) : String :=
  let lines := pySplitLines s.toList
  let norm := lines.map (fun ln =>
    if leadsWith "----ARG".toList (pyStrip ln) then ResponseParser.AS else ln)
  ⟨collapseEnds (List.intercalate ['\n'] norm)⟩

/-- `ReactAgent._sanitize_arg`: remove lines that are exactly the stray
`----END_ARGUMENT----` marker from an argument value. -/
def sanitizeArg (v : List Char) : List Char :=
  List.intercalate ['\n']
    ((pySplitLines v).filter (fun ln => ¬ (pyStrip ln = "----END_ARGUMENT----".toList)))

/-! ## Message history tree (src/simple_agent.py, `ReactAgent`) -/

/-- One node of the message history tree (the dict built by `_add_message`).
Wall-clock timestamps are informational external input; the model fixes
them to 0. -/
structure Message where
  role : String
  content : String
  timestamp : Nat
  unique_id : Nat
  parent : Int
  children : List Nat
deriving DecidableEq, Repr

/-- The mutable agent state of `ReactAgent` (src/simple_agent.py): the
message tree, the root/current ids, the live instructions text, and the
consecutive-failure streak counters.  (The unread `_tests_unavailable` flag
and the purely informational `name`/`timestamp` fields are omitted.) -/
structure AgentState where
  id_to_message : List Message
  root_message_id : Int
  current_message_id : Int
  instructions : String
  last_tool_name : String
  last_tool_error_streak : Nat
  user_message_index : Nat
deriving DecidableEq, Repr

namespace ReactAgent

/-- Out-of-range message lookups model Python index errors, which are
unreachable on states produced by the agent operations; `msgAt` totalizes
the lookup with a default node. -/
def defaultMessage : Message :=
  { role := "", content := "", timestamp := 0, unique_id := 0, parent := -1, children := [] }

/-- `self.id_to_message[i]` for an in-range index. -/
def msgAt (st : AgentState) (i : Nat) : Message := st.id_to_message.getD i defaultMessage

/-- `ReactAgent._add_message` (= the public shim `add_message`): create a
node whose parent is the current cursor, append it, link it into the
parent's `children` (when the cursor is not the `-1` sentinel), advance the
cursor, and set the root on the very first call.  Returns the new id. -/
def add_message (role content : String) (st : AgentState) : Nat × AgentState :=
  let parent_id := st.current_message_id
  let msg_id := st.id_to_message.length
  let msg : Message :=
    { role := role, content := content, timestamp := 0, unique_id := msg_id,
      parent := parent_id, children := [] }
  let msgs := st.id_to_message ++ [msg]
  let msgs :=
    if parent_id ≠ -1 then
      listModify (fun m => { m with children := m.children ++ [msg_id] }) parent_id.toNat msgs
    else msgs
  let st : AgentState := { st with id_to_message := msgs, current_message_id := (msg_id : Int) }
  let st : AgentState :=
    if st.root_message_id = -1 then { st with root_message_id := (msg_id : Int) } else st
  (msg_id, st)

/-- `ReactAgent._set_message`: in-place content overwrite by id. -/
def set_message (idx : Nat) (content : String) (st : AgentState) : AgentState :=
  { st with
    id_to_message := listModify (fun m => { m with content := content }) idx st.id_to_message }

/-- `ReactAgent.set_user_prompt`. -/
def set_user_prompt (user_prompt : String) (st : AgentState) : AgentState :=
  set_message st.user_message_index user_prompt st

/-- `ReactAgent.add_instructions_and_backtrack` (src/simple_agent.py):
overwrite the live instructions, then parse the target id (`none` models a
raised `ValueError` from `int(...)`, recovered by falling back to the
user-task node); an in-range target moves the cursor, an out-of-range target
leaves the cursor untouched and only reports failure. -/
def add_instructions_and_backtrack (instructions : String) (at_message_id : Option Int)
    (st : AgentState) : String × AgentState :=
  let st := { st with instructions := instructions }
  let a : Int :=
    match at_message_id with
    | some i => i
    | none => (st.user_message_index : Int)
  if 0 ≤ a ∧ a < (st.id_to_message.length : Int) then
    ("Backtracked to message " ++ toString a ++ ".", { st with current_message_id := a })
  else
    ("Invalid backtrack id; instructions updated.", st)

/-- The fresh agent produced by `ReactAgent.__init__`: empty tree, then a
root system node (content is empty; the system prompt is injected by the
context builder) and a user node whose content `run` fills in. -/
def freshAgent : AgentState :=
  let st : AgentState :=
    { id_to_message := [], root_message_id := -1, current_message_id := -1,
      instructions := "", last_tool_name := "", last_tool_error_streak := 0,
      user_message_index := 0 }
  let (root_id, st) := add_message "system" "" st
  let st := { st with root_message_id := (root_id : Int) }
  let (user_idx, st) := add_message "user" "" st
  { st with user_message_index := user_idx }

end ReactAgent

/-! ## The git collaborator and the `finish` guard (src/simple_agent.py) -/

/-- The observable state of the git subprocess environment consulted by
`finish`: whether the `git` calls themselves succeed, and the return codes
and outputs of `git status --porcelain`, `git diff --staged` and
`git diff`. -/
structure GitEnv where
  available : Bool
  status_returncode : Int
  status_stdout : String
  staged_returncode : Int
  staged_stdout : String
  unstaged_returncode : Int
  unstaged_stdout : String
deriving DecidableEq, Repr

/-- Python `str.strip()` on `String`. -/
def pyStripS (s : String) : String := ⟨pyStrip s.toList⟩

namespace ReactAgent

/-- The body of the `try:` block inside `ReactAgent.finish`
(src/simple_agent.py): each `raise` is an `Except.error` — the
git-unavailable failure of `subprocess.run` itself, the `no_changes`
validation error when `git status --porcelain` reports a clean tree, and the
`empty_patch` validation error when both diffs are blank. -/
def finishBody (git : GitEnv) : Except String Unit :=
  if ¬ git.available then .error "git unavailable"
  else if git.status_returncode = 0 ∧ pyStripS git.status_stdout = "" then
    .error "no_changes: No file modifications detected. Make a minimal edit before finishing."
  else if git.staged_returncode = 0 ∧ git.unstaged_returncode = 0 ∧
      (pyStripS (git.staged_stdout ++ git.unstaged_stdout)).length < 10 then
    .error "empty_patch: Changes detected by status but no diff content. Ensure edits were written to disk."
  else .ok ()

/-- `ReactAgent.finish` (src/simple_agent.py): the whole guard block sits
inside `try: ... except Exception: pass`, so every raise inside it —
including the two validation `ValueError`s the block itself raises — is
swallowed, and `finish` returns `result` unconditionally. -/
def finish (git : GitEnv) (result : String) : String :=
  match finishBody git with
  | .ok _ => result
  | .error _ => result

end ReactAgent

/-! ## Tool registry and context builder (src/simple_agent.py) -/

/-- A registered tool: its declared name, the signature and docstring text
that `inspect` extracts for the prompt, and its behaviour.  A tool may read
the git environment and the agent state and either returns a result string
with an updated state or raises (`Except.error`), which also models Python
`TypeError`s from keyword-argument mismatch in `tool(**args)`. -/
structure Tool where
  name : String
  sigText : String
  docText : String
  fn : GitEnv → List (String × String) → AgentState → Except String (String × AgentState)

namespace ReactAgent

/-- The description block one tool contributes to the prompt:
`f"Function: {tool.__name__}{signature}\n{docstring}\n"`. -/
def toolDescription (t : Tool) : String :=
  "Function: " ++ t.name ++ t.sigText ++ "\n" ++ t.docText ++ "\n"

/-- The concatenated tool descriptions (`"\n".join(tool_descriptions)`). -/
def toolsBlock (fm : List (String × Tool)) : String :=
  String.intercalate "\n" (fm.map (fun p => toolDescription p.2))

/-- `ReactAgent._system_prompt` (abridged; the full text is inert prompt
data with no behavioural role). -/
def system_prompt : String :=
  "ROLE: Bash-only coding agent fixing a single bug in a large repo. (abridged)"

/-- `ReactAgent.add_functions`: register tools by their declared name into
the function map; a later registration under an existing name overwrites
(Python dict assignment). -/
def add_functions (tools : List Tool) (fm : List (String × Tool)) : List (String × Tool) :=
  tools.foldl
    (fun fm t =>
      if fm.any (·.1 = t.name) then
        fm.map (fun p => if p.1 = t.name then (t.name, t) else p)
      else fm ++ [(t.name, t)])
    fm

/-- The root-to-current path walk of `_build_context` (collect ids following
`parent` links from the cursor until the `-1` sentinel, then reverse).  The
fuel is justified by the tree invariant: parent ids strictly decrease. -/
def visibleIdsGo (st : AgentState) : Nat → Int → List Nat
  | 0, _ => []
  | fuel + 1, cursor =>
    if cursor = -1 then []
    else cursor.toNat :: visibleIdsGo st fuel (msgAt st cursor.toNat).parent

/-- The `visible_ids` list of `_build_context`, in root-to-current order. -/
def visibleIds (st : AgentState) : List Nat :=
  (visibleIdsGo st (st.id_to_message.length + 1) st.current_message_id).reverse

/-- `ReactAgent._build_context` (src/simple_agent.py): a synthesized system
block (role prompt, tool descriptions, response-format template) as the
first transcript part, then each node on the root-to-current path as
`[role]` plus content — skipping only the root system message — joined with
blank lines. -/
def build_context (fm : List (String × Tool)) (st : AgentState) : String :=
  let system_block :=
    system_prompt ++ "\n\n--- AVAILABLE TOOLS ---\n" ++ toolsBlock fm ++
      "\n\n--- RESPONSE FORMAT ---\n" ++ ResponseParser.response_format ++ "\n"
  let parts := (visibleIds st).filterMap (fun mid =>
    let msg := msgAt st mid
    if msg.role = "system" ∧ (mid : Int) = st.root_message_id then none
    else some ("[" ++ msg.role ++ "]\n" ++ msg.content ++ "\n"))
  String.intercalate "\n" (("[system]\n" ++ system_block ++ "\n") :: parts)

end ReactAgent

/-! ## Built-in tools and the main loop (src/simple_agent.py, `ReactAgent.run`) -/

namespace ReactAgent

/-- The built-in `finish` tool: its only keyword parameter is `result`; a
missing or extra keyword models the `TypeError` that `tool(**args)` raises. -/
def finishTool : Tool :=
  { name := "finish"
    sigText := "(result: str) -> str"
    docText := "Submit final result/summary. The runner will generate a git patch after this is returned. (abridged)"
    fn := fun git args st =>
      match dictFind args "result" with
      | some v =>
        if args.length = 1 then .ok (finish git v, st)
        else .error "TypeError: finish() got an unexpected keyword argument"
      | none => .error "TypeError: finish() missing 1 required argument: result" }

/-- The built-in `add_instructions_and_backtrack` tool; its keyword
parameters are `instructions` and `at_message_id` (the latter passed through
Python `int(...)`). -/
def backtrackTool : Tool :=
  { name := "add_instructions_and_backtrack"
    sigText := "(instructions: str, at_message_id: int) -> str"
    docText := "Update instructions and move the current pointer back to an earlier message id. Messages are never removed; future steps will branch from the chosen node."
    fn := fun _ args st =>
      match dictFind args "instructions", dictFind args "at_message_id" with
      | some instr, some ats =>
        if args.length = 2 then
          let r := add_instructions_and_backtrack instr (pyInt ats.toList) st
          .ok r
        else .error "TypeError: add_instructions_and_backtrack() got an unexpected keyword argument"
      | _, _ => .error "TypeError: add_instructions_and_backtrack() missing required arguments" }

/-- The function map after `__init__` plus one external
`add_functions(ext)` call: the built-ins first, then the externally provided
tools (later names overwrite). -/
def initFunctionMap (ext : List Tool) : List (String × Tool) :=
  add_functions ext (add_functions [finishTool, backtrackTool] [])

/-- The LLM backend, modelled as an oracle giving the outcome of the i-th
`generate` call of the run (the call receives the built context, but a stub
oracle is free to ignore it); `Except.error` models a raised backend
exception. -/
def LLMOracle : Type := Nat → Except String String

/-- The corrective message injected on a parse failure. -/
def format_error_message : String :=
  "Format error: The response must end with exactly one function call using\n----BEGIN_FUNCTION_CALL---- ... ----END_FUNCTION_CALL----.\nRespond again and include a tool call."

/-- The message injected when the decoded name is not registered
(the quotes and bracket punctuation of the Python repr are elided). -/
def unknown_tool_message (fm : List (String × Tool)) (tool_name : String) : String :=
  "Unknown tool " ++ tool_name ++ ". Available: " ++ String.intercalate ", " (fm.map (·.1))

/-- The message injected when a dispatched tool raises below the streak
threshold. -/
def tool_error_message (tool_name hint : String) : String :=
  "Tool " ++ tool_name ++ " error: " ++ hint

/-- The pivot-strategy instructions installed by the automatic backtrack
(abridged; inert prompt data). -/
def stuck_instructions : String :=
  "STUCK: Previous attempts failed. Pivot strategy: locate the target, inspect it, apply a minimal edit, verify the edit landed with git diff, then run a focused test. (abridged)"

/-- The system message recording an automatic backtrack. -/
def auto_backtrack_message (tool_name hint : String) : String :=
  "AUTO-BACKTRACK applied due to repeated " ++ tool_name ++ " errors: " ++ hint

/-- The step-limit sentinel returned when the loop exhausts `max_steps`. -/
def step_limit_sentinel : String :=
  "Agent reached maximum steps without calling finish."

/-- The `for _ in range(max_steps)` body of `ReactAgent.run`, translated
branch by branch.  `fuel` is the number of remaining iterations and `step`
the index of the next LLM call.  The `try`/`except` blocks of the source
around parsing and tool execution appear as `match`es on `Except` values;
the `llm.generate` call has no handler in the source, so its failure
propagates out of the loop. -/
def runLoop (git : GitEnv) (fm : List (String × Tool)) (llm : LLMOracle) :
    Nat → Nat → AgentState → Except String (String × AgentState)
  | 0, _, st => .ok (step_limit_sentinel, st)
  | fuel + 1, step, st =>
    let _prompt := build_context fm st
    match llm step with
    | .error e => .error e
    | .ok response =>
      let st := (add_message "assistant" response st).2
      match ResponseParser.parseS (normalizeResponse response) with
      | .error _ =>
        runLoop git fm llm fuel (step + 1) (add_message "system" format_error_message st).2
      | .ok parsed =>
        let tool_name : String := ⟨parsed.name⟩
        let args : List (String × String) :=
          parsed.arguments.map (fun p => (⟨p.1⟩, ⟨sanitizeArg p.2⟩))
        match dictFind fm tool_name with
        | none =>
          runLoop git fm llm fuel (step + 1)
            (add_message "system" (unknown_tool_message fm tool_name) st).2
        | some tool =>
          match tool.fn git args st with
          | .error hint =>
            let st : AgentState :=
              if tool_name = st.last_tool_name then
                { st with last_tool_error_streak := st.last_tool_error_streak + 1 }
              else
                { st with last_tool_name := tool_name, last_tool_error_streak := 1 }
            if 2 ≤ st.last_tool_error_streak then
              let st := (add_instructions_and_backtrack stuck_instructions
                (some (st.user_message_index : Int)) st).2
              let st := (add_message "system" (auto_backtrack_message tool_name hint) st).2
              runLoop git fm llm fuel (step + 1)
                { st with last_tool_error_streak := 0, last_tool_name := "" }
            else
              runLoop git fm llm fuel (step + 1)
                (add_message "system" (tool_error_message tool_name hint) st).2
          | .ok (result, st') =>
            if tool_name = "finish" then
              .ok (result, { st' with last_tool_error_streak := 0, last_tool_name := "" })
            else
              let st := (add_message "system" ("Result:\n" ++ result) st').2
              runLoop git fm llm fuel (step + 1)
                { st with last_tool_error_streak := 0, last_tool_name := "" }

/-- `ReactAgent.run` for an agent with the built-in tools plus `ext`: set
the task as the user prompt, then iterate at most `max_steps` times. -/
def run (git : GitEnv) (ext : List Tool) (llm : LLMOracle) (task : String)
    (max_steps : Nat) : Except String (String × AgentState) :=
  runLoop git (initFunctionMap ext) llm max_steps 0 (set_user_prompt task freshAgent)

/-- Modelled from the spec: the Context Builder rendering as §4.4 and claim
C9 word it — the dynamic system block (role-and-rules prompt, concatenated
tool descriptions, format-spec template) appears exactly once as the very
first segment, and every non-root node on the root-to-current path is
rendered as a plain labeled header plus its content, with nothing
attached. -/
def build_context_spec (fm : List (String × Tool)) (st : AgentState) : String :=
  let dynamic_system_segment :=
    "[system]\n" ++ system_prompt ++ "\n\n--- AVAILABLE TOOLS ---\n" ++ toolsBlock fm ++
      "\n\n--- RESPONSE FORMAT ---\n" ++ ResponseParser.response_format ++ "\n" ++ "\n"
  let plain_segment := fun (m : Message) => "[" ++ m.role ++ "]\n" ++ m.content ++ "\n"
  let non_root := (visibleIds st).filter (fun (mid : Nat) => (mid : Int) != st.root_message_id)
  String.intercalate "\n" (dynamic_system_segment :: non_root.map (fun mid => plain_segment (msgAt st mid)))

end ReactAgent

/-! ## The older variant renderer (src/agent.py, `ReactAgent.message_id_to_context`) -/

namespace AgentPy

/-- The labeled header line of src/agent.py. -/
def message_header (m : Message) : String :=
  "----------------------------\n|MESSAGE(role=\"" ++ m.role ++ "\", id=" ++
    toString m.unique_id ++ ")|\n"

/-- `ReactAgent.message_id_to_context` (src/agent.py): every system-role
node is rendered with the tool descriptions and the format template
appended; instructor nodes get the compliance preamble; all other roles
render as header plus content. -/
def message_id_to_context (fm : List (String × Tool)) (st : AgentState)
    (message_id : Nat) : String :=
  let message := ReactAgent.msgAt st message_id
  let header := message_header message
  let content := message.content
  if message.role = "system" then
    header ++ content ++ "\n--- AVAILABLE TOOLS ---\n" ++ ReactAgent.toolsBlock fm ++
      "\n\n--- RESPONSE FORMAT ---\n" ++ ResponseParser.response_format ++ "\n"
  else if message.role = "instructor" then
    header ++ "YOU MUST FOLLOW THE FOLLOWING INSTRUCTIONS AT ANY COST. OTHERWISE, YOU WILL BE DECOMISSIONED.\n" ++
      content ++ "\n"
  else
    header ++ content ++ "\n"

/-- `ReactAgent.get_context` (src/agent.py): concatenate the renderings of
the root-to-current path (the walk is the same as in the newer variant). -/
def get_context (fm : List (String × Tool)) (st : AgentState) : String :=
  String.join ((ReactAgent.visibleIds st).map (message_id_to_context fm st))

end AgentPy

/-! ## Tree operation sequences and invariants (for the P1/P9 claims) -/

/-- One externally triggered history-tree operation: `addMessage` or a
backtrack request (`none` in `backtrack` models an unparseable id). -/
inductive TreeOp where
  | add (role content : String)
  | backtrack (instructions : String) (at_message_id : Option Int)

/-- Apply one tree operation to the agent state. -/
def applyOp (st : AgentState) : TreeOp → AgentState
  | .add r c => (ReactAgent.add_message r c st).2
  | .backtrack i a => (ReactAgent.add_instructions_and_backtrack i a st).2

/-- Apply a finite sequence of tree operations. -/
def applyOps (st : AgentState) (ops : List TreeOp) : AgentState := ops.foldl applyOp st

/-- Total number of occurrences of the id `c` across all `children` lists. -/
def childOcc (st : AgentState) (c : Nat) : Nat :=
  (st.id_to_message.map (fun m => m.children.count c)).sum

/-- Following `parent` links from id `i` reaches the root within `fuel`
steps. -/
def reachRoot (st : AgentState) : Nat → Int → Bool
  | 0, _ => false
  | fuel + 1, i =>
    if i = st.root_message_id then true
    else if i < 0 then false
    else reachRoot st fuel (ReactAgent.msgAt st i.toNat).parent

/-- The message-tree invariant maintained by `add_message` and
`add_instructions_and_backtrack` from a fresh agent: fixed root and
user-node ids, a valid cursor, ids equal to positions, the root parent is
the `-1` sentinel, every non-root parent id is a valid id strictly below its
child, `children` lists hold exactly the valid non-root ids whose `parent`
points back, and every non-root id occurs in the children lists exactly
once. -/
def TreeInv (st : AgentState) : Prop :=
  st.root_message_id = 0 ∧
  st.user_message_index = 1 ∧
  2 ≤ st.id_to_message.length ∧
  0 ≤ st.current_message_id ∧
  st.current_message_id < (st.id_to_message.length : Int) ∧
  (∀ i, i < st.id_to_message.length → (ReactAgent.msgAt st i).unique_id = i) ∧
  (ReactAgent.msgAt st 0).parent = -1 ∧
  (∀ i, i < st.id_to_message.length → 0 < i →
    0 ≤ (ReactAgent.msgAt st i).parent ∧ (ReactAgent.msgAt st i).parent < (i : Int)) ∧
  (∀ i, i < st.id_to_message.length → ∀ c ∈ (ReactAgent.msgAt st i).children,
    0 < c ∧ c < st.id_to_message.length ∧ (ReactAgent.msgAt st c).parent = (i : Int)) ∧
  (∀ c, c < st.id_to_message.length → 0 < c → childOcc st c = 1)

instance (st : AgentState) : Decidable (TreeInv st) := by
  unfold TreeInv; infer_instance

namespace ResponseParser

/-- The concatenated rendered argument blocks of `encode`. -/
def chunksOf (args : List (List Char × List Char)) : List Char :=
  (args.map (fun p => encodeArg p.1 p.2)).flatten

/-- The rendered argument blocks after the whole-body `strip` of `parse`:
identical to `chunksOf` except that the final newline (and, for an empty
final value, its extra newline) has been stripped. -/
def strippedChunks : List (List Char × List Char) → List Char
  | [] => []
  | [(k, v)] => AS ++ '\n' :: (k ++ (if v = [] then [] else '\n' :: v))
  | (k, v) :: rest => AS ++ '\n' :: (k ++ '\n' :: (v ++ '\n' :: strippedChunks rest))

/-- The argument segments produced by splitting the stripped call body on
the separator. -/
def partsOf : List (List Char × List Char) → List (List Char)
  | [] => []
  | [(k, v)] => ['\n' :: (k ++ (if v = [] then [] else '\n' :: v))]
  | (k, v) :: rest => ('\n' :: (k ++ '\n' :: (v ++ ['\n']))) :: partsOf rest

end ResponseParser

/-! ## Concrete collaborator instances used by witnesses and counterexamples -/

/-- A git environment in which the `git` subprocess itself fails
(`subprocess.run` raises). -/
def gitUnavailable : GitEnv where
  available := false
  status_returncode := 1
  status_stdout := ""
  staged_returncode := 1
  staged_stdout := ""
  unstaged_returncode := 1
  unstaged_stdout := ""

/-- A git environment reporting a perfectly clean working tree:
`git status --porcelain` exits 0 with empty output, and both diffs are
empty. -/
def gitClean : GitEnv where
  available := true
  status_returncode := 0
  status_stdout := ""
  staged_returncode := 0
  staged_stdout := ""
  unstaged_returncode := 0
  unstaged_stdout := ""

/-- A canonical well-formed call to `finish` with `result="done"`. -/
def finishDoneText : String :=
  "----BEGIN_FUNCTION_CALL----\nfinish\n----ARG----\nresult\ndone\n----END_FUNCTION_CALL----"

/-- A stub LLM whose first response is `finishDoneText` and which fails on
any later call (so a successful run witnesses that no second call was
made). -/
def finishFirstOracle : ReactAgent.LLMOracle :=
  fun i => if i = 0 then .ok finishDoneText else .error "no further calls"

/-- A fresh agent with one extra assistant message (ids 0,1,2; cursor 2). -/
def sample3 : AgentState := (ReactAgent.add_message "assistant" "hi" ReactAgent.freshAgent).2

/-- A fresh agent with one extra *system-role* tool-result message
(ids 0,1,2; node 2 has role system but is not the root; cursor 2). -/
def sampleSys : AgentState :=
  (ReactAgent.add_message "system" "Result: ok" ReactAgent.freshAgent).2

/-! # Theorems

The first group: generic lemmas about the list primitives; then the claims
about the message tree, the `finish` guard, the context builders, the run
loop, and finally the response codec.
-/

/-! ## Lemmas about `listModify` and indexed access -/

theorem listModify_length {α : Type} (f : α → α) (i : Nat) (l : List α) :
    (listModify f i l).length = l.length := by
  induction l generalizing i with
  | nil => cases i <;> rfl
  | cons a t ih =>
    cases i with
    | zero => rfl
    | succ n => simpa [listModify] using ih n

theorem getD_listModify_self {α : Type} (f : α → α) (i : Nat) (l : List α) (d : α)
    (h : i < l.length) : (listModify f i l).getD i d = f (l.getD i d) := by
  induction l generalizing i with
  | nil => simp at h
  | cons a t ih =>
    cases i with
    | zero => rfl
    | succ n =>
      have hn : n < t.length := by simpa using h
      simpa [listModify] using ih n hn

theorem getD_listModify_ne {α : Type} (f : α → α) (i j : Nat) (l : List α) (d : α)
    (h : j ≠ i) : (listModify f i l).getD j d = l.getD j d := by
  induction l generalizing i j with
  | nil => cases i <;> rfl
  | cons a t ih =>
    cases i with
    | zero =>
      cases j with
      | zero => exact absurd rfl h
      | succ m => rfl
    | succ n =>
      cases j with
      | zero => rfl
      | succ m => simpa [listModify] using ih n m (by omega)

theorem getD_append_left {α : Type} (l l' : List α) (j : Nat) (d : α)
    (h : j < l.length) : (l ++ l').getD j d = l.getD j d :=
  List.getD_append l l' d j h

theorem getD_append_self {α : Type} (l : List α) (a : α) (d : α) :
    (l ++ [a]).getD l.length d = a := by
  simp [List.getD_append_right]

theorem map_sum_listModify {α : Type} (f : α → α) (g : α → Nat) (t : Nat)
    (hft : ∀ x, g (f x) = g x + t) (i : Nat) (l : List α) (h : i < l.length) :
    ((listModify f i l).map g).sum = (l.map g).sum + t := by
  induction l generalizing i with
  | nil => simp at h
  | cons a tl ih =>
    cases i with
    | zero => simp [listModify, hft a, Nat.add_assoc, Nat.add_comm, Nat.add_left_comm]
    | succ n =>
      have hn : n < tl.length := by simpa using h
      simp only [listModify, List.map_cons, List.sum_cons, ih n hn]
      omega

/-! ## Lemmas about the message-tree operations -/

namespace ReactAgent

/-- Componentwise description of `add_message` when the cursor is
non-negative (the only situation arising after `__init__`). -/
theorem add_message_spec (r c : String) (st : AgentState)
    (hcur : 0 ≤ st.current_message_id) :
    (add_message r c st).1 = st.id_to_message.length ∧
    (add_message r c st).2.id_to_message =
      listModify (fun m => { m with children := m.children ++ [st.id_to_message.length] })
        st.current_message_id.toNat
        (st.id_to_message ++
          [{ role := r, content := c, timestamp := 0,
             unique_id := st.id_to_message.length, parent := st.current_message_id,
             children := [] }]) ∧
    (add_message r c st).2.current_message_id = (st.id_to_message.length : Int) ∧
    (add_message r c st).2.root_message_id =
      (if st.root_message_id = -1 then (st.id_to_message.length : Int)
       else st.root_message_id) ∧
    (add_message r c st).2.instructions = st.instructions ∧
    (add_message r c st).2.last_tool_name = st.last_tool_name ∧
    (add_message r c st).2.last_tool_error_streak = st.last_tool_error_streak ∧
    (add_message r c st).2.user_message_index = st.user_message_index := by
  have hne : st.current_message_id ≠ -1 := by omega
  unfold add_message
  simp only [hne, if_true, ite_not, reduceIte]
  split <;> simp_all

/-- `add_message` grows the tree by exactly one node. -/
theorem add_message_length (r c : String) (st : AgentState) :
    (add_message r c st).2.id_to_message.length = st.id_to_message.length + 1 := by
  by_cases h1 : st.current_message_id = -1 <;>
  by_cases h2 : st.root_message_id = -1 <;>
  simp [add_message, h1, h2, listModify_length]

end ReactAgent

section TreeLemmas

open ReactAgent

theorem add_message_msgAt_old (r c : String) (st : AgentState)
    (hcur : 0 ≤ st.current_message_id) (i : Nat) (hi : i < st.id_to_message.length)
    (hne : i ≠ st.current_message_id.toNat) :
    msgAt (add_message r c st).2 i = msgAt st i := by
  have h := (add_message_spec r c st hcur).2.1
  unfold msgAt
  rw [h, getD_listModify_ne _ _ _ _ _ hne, getD_append_left _ _ _ _ hi]

theorem add_message_msgAt_parent (r c : String) (st : AgentState)
    (hcur : 0 ≤ st.current_message_id)
    (hlt : st.current_message_id.toNat < st.id_to_message.length) :
    msgAt (add_message r c st).2 st.current_message_id.toNat =
      { msgAt st st.current_message_id.toNat with
        children := (msgAt st st.current_message_id.toNat).children ++
          [st.id_to_message.length] } := by
  have h := (add_message_spec r c st hcur).2.1
  unfold msgAt
  rw [h, getD_listModify_self _ _ _ _ (by simp; omega), getD_append_left _ _ _ _ hlt]

theorem add_message_msgAt_new (r c : String) (st : AgentState)
    (hcur : 0 ≤ st.current_message_id)
    (hlt : st.current_message_id.toNat < st.id_to_message.length) :
    msgAt (add_message r c st).2 st.id_to_message.length =
      { role := r, content := c, timestamp := 0, unique_id := st.id_to_message.length,
        parent := st.current_message_id, children := [] } := by
  have h := (add_message_spec r c st hcur).2.1
  unfold msgAt
  rw [h, getD_listModify_ne _ _ _ _ _ (by omega), getD_append_self]

theorem add_message_childOcc (r c : String) (st : AgentState)
    (hcur : 0 ≤ st.current_message_id)
    (hlt : st.current_message_id.toNat < st.id_to_message.length) (x : Nat) :
    childOcc (add_message r c st).2 x =
      childOcc st x + (if x = st.id_to_message.length then 1 else 0) := by
  have h := (add_message_spec r c st hcur).2.1
  have hft : ∀ m : Message,
      (fun (m : Message) => m.children.count x)
        ((fun m => { m with children := m.children ++ [st.id_to_message.length] }) m)
        = (fun (m : Message) => m.children.count x) m +
          (if x = st.id_to_message.length then 1 else 0) := by
    intro m
    simp only [List.count_append]
    congr 1
    by_cases hx : x = st.id_to_message.length <;> simp [hx]
  unfold childOcc
  rw [h, map_sum_listModify _ _ _ hft _ _ (by simp; omega)]
  simp [childOcc, List.map_append, List.sum_append]

theorem childOcc_eq_zero (st : AgentState) (x : Nat)
    (h : ∀ i, i < st.id_to_message.length → x ∉ (msgAt st i).children) :
    childOcc st x = 0 := by
  unfold childOcc
  apply List.sum_eq_zero
  intro y hy
  obtain ⟨m, hm, rfl⟩ := List.mem_map.mp hy
  obtain ⟨i, hi, rfl⟩ := List.mem_iff_getElem.mp hm
  apply List.count_eq_zero.mpr
  have := h i hi
  rwa [msgAt, List.getD_eq_getElem _ _ hi] at this

theorem treeInv_congr (st st' : AgentState)
    (hm : st'.id_to_message = st.id_to_message)
    (hr : st'.root_message_id = st.root_message_id)
    (hu : st'.user_message_index = st.user_message_index)
    (hc0 : 0 ≤ st'.current_message_id)
    (hcl : st'.current_message_id < (st'.id_to_message.length : Int))
    (h : TreeInv st) : TreeInv st' := by
  obtain ⟨h1, h2, h3, _, _, h6, h7, h8, h9, h10⟩ := h
  refine ⟨hr ▸ h1, hu ▸ h2, ?_, hc0, hcl, ?_, ?_, ?_, ?_, ?_⟩ <;>
    simp only [TreeInv, msgAt, childOcc, hm] at *
  · exact h3
  · exact h6
  · exact h7
  · exact h8
  · exact h9
  · exact h10

theorem treeInv_add_message (r c : String) (st : AgentState) (h : TreeInv st) :
    TreeInv (add_message r c st).2 := by
  obtain ⟨h1, h2, h3, h4, h5, h6, h7, h8, h9, h10⟩ := h
  have hlt : st.current_message_id.toNat < st.id_to_message.length := by omega
  have hspec := add_message_spec r c st h4
  have hlen := add_message_length r c st
  set n := st.id_to_message.length with hn
  set p := st.current_message_id.toNat with hp
  have hpcast : (p : Int) = st.current_message_id := Int.toNat_of_nonneg h4
  have hmsgAt : ∀ i, i < n → i ≠ p → msgAt (add_message r c st).2 i = msgAt st i :=
    fun i hi hne => add_message_msgAt_old r c st h4 i hi hne
  have hmsgP := add_message_msgAt_parent r c st h4 hlt
  have hmsgN := add_message_msgAt_new r c st h4 hlt
  have hparent : ∀ i, i < n → (msgAt (add_message r c st).2 i).parent = (msgAt st i).parent := by
    intro i hi
    by_cases hip : i = p
    · rw [hip, hmsgP]
    · rw [hmsgAt i hi hip]
  have huid : ∀ i, i < n → (msgAt (add_message r c st).2 i).unique_id = (msgAt st i).unique_id := by
    intro i hi
    by_cases hip : i = p
    · rw [hip, hmsgP]
    · rw [hmsgAt i hi hip]
  refine ⟨?_, ?_, ?_, ?_, ?_, ?_, ?_, ?_, ?_, ?_⟩
  · rw [hspec.2.2.2.1, h1]; simp
  · rw [hspec.2.2.2.2.2.2.2, h2]
  · omega
  · rw [hspec.2.2.1]; positivity
  · rw [hspec.2.2.1, hlen]; exact_mod_cast Nat.lt_succ_self n
  · intro i hi
    rw [hlen] at hi
    rcases Nat.lt_succ_iff_lt_or_eq.mp hi with hi' | hi'
    · rw [huid i hi']; exact h6 i hi'
    · rw [hi', hmsgN]
  · have h0n : (0 : Nat) < n := by omega
    rw [hparent 0 h0n]; exact h7
  · intro i hi hpos
    rw [hlen] at hi
    rcases Nat.lt_succ_iff_lt_or_eq.mp hi with hi' | hi'
    · rw [hparent i hi']; exact h8 i hi' hpos
    · rw [hi', hmsgN]; constructor
      · exact h4
      · exact_mod_cast h5
  · intro i hi x hx
    rw [hlen] at hi
    rcases Nat.lt_succ_iff_lt_or_eq.mp hi with hi' | hi'
    · by_cases hip : i = p
      · rw [hip, hmsgP] at hx
        simp only [List.mem_append, List.mem_singleton] at hx
        rcases hx with hx | hx
        · have := h9 p hlt x hx
          refine ⟨this.1, by omega, ?_⟩
          rw [hparent x (this.2.1), hip]
          exact this.2.2
        · subst hx
          refine ⟨by omega, by omega, ?_⟩
          rw [hmsgN, hip, hpcast]
      · rw [hmsgAt i hi' hip] at hx
        have := h9 i hi' x hx
        refine ⟨this.1, by omega, ?_⟩
        rw [hparent x this.2.1]
        exact this.2.2
    · rw [hi', hmsgN] at hx
      simp at hx
  · intro x hx hxpos
    rw [add_message_childOcc r c st h4 hlt x, hlen] at *
    rcases Nat.lt_succ_iff_lt_or_eq.mp hx with hx' | hx'
    · simp only [if_neg (by omega : ¬ x = n)]
      simpa using h10 x hx' hxpos
    · have hzero : childOcc st x = 0 := by
        apply childOcc_eq_zero
        intro i hi hmem
        have := h9 i hi x hmem
        omega
      rw [hzero, hx']
      simp

theorem aib_state (instr : String) (a : Option Int) (st : AgentState) :
    (add_instructions_and_backtrack instr a st).2 =
      (let x : Int := match a with | some i => i | none => (st.user_message_index : Int)
       if 0 ≤ x ∧ x < (st.id_to_message.length : Int) then
         { st with instructions := instr, current_message_id := x }
       else { st with instructions := instr }) := by
  cases a <;> simp only [add_instructions_and_backtrack] <;> split <;> rfl

theorem treeInv_backtrack (instr : String) (a : Option Int) (st : AgentState)
    (h : TreeInv st) :
    TreeInv (add_instructions_and_backtrack instr a st).2 := by
  rw [aib_state]
  dsimp only
  split
  · rename_i hin
    exact treeInv_congr st _ rfl rfl rfl hin.1 hin.2 h
  · exact treeInv_congr st _ rfl rfl rfl h.2.2.2.1 h.2.2.2.2.1 h

theorem treeInv_freshAgent : TreeInv ReactAgent.freshAgent := by decide

theorem treeInv_applyOp (st : AgentState) (op : TreeOp) (h : TreeInv st) :
    TreeInv (applyOp st op) := by
  cases op with
  | add r c => exact treeInv_add_message r c st h
  | backtrack i a => exact treeInv_backtrack i a st h

theorem treeInv_applyOps (st : AgentState) (ops : List TreeOp) (h : TreeInv st) :
    TreeInv (applyOps st ops) := by
  induction ops generalizing st with
  | nil => exact h
  | cons op rest ih => exact ih (applyOp st op) (treeInv_applyOp st op h)

theorem reachRoot_mono (st : AgentState) (f g : Nat) (i : Int)
    (h : reachRoot st f i = true) (hfg : f ≤ g) : reachRoot st g i = true := by
  induction f generalizing g i with
  | zero => simp [reachRoot] at h
  | succ f ih =>
    obtain ⟨g', rfl⟩ : ∃ g', g = g' + 1 := ⟨g - 1, by omega⟩
    unfold reachRoot at h ⊢
    by_cases h1 : i = st.root_message_id
    · simp [h1]
    · rw [if_neg h1] at h ⊢
      by_cases h2 : i < 0
      · rw [if_pos h2] at h
        exact absurd h (by simp)
      · rw [if_neg h2] at h ⊢
        exact ih _ _ h (by omega)

theorem reachRoot_of_inv (st : AgentState) (h : TreeInv st) :
    ∀ i, i < st.id_to_message.length → reachRoot st (i + 1) (i : Int) = true := by
  intro i
  induction i using Nat.strong_induction_on with
  | _ i ih =>
    intro hi
    by_cases h0 : i = 0
    · subst h0
      unfold reachRoot
      simp [h.1]
    · obtain ⟨hp0, hpi⟩ :=
        h.2.2.2.2.2.2.2.1 i hi (Nat.pos_of_ne_zero h0)
      unfold reachRoot
      rw [if_neg (by rw [h.1]; exact_mod_cast h0), if_neg (by omega)]
      have htn : (i : Int).toNat = i := Int.toNat_ofNat i
      rw [htn]
      set p := (msgAt st i).parent with hp
      have hcast : ((p.toNat : Int)) = p := Int.toNat_of_nonneg hp0
      have hlt : p.toNat < i := by omega
      have hrec := ih p.toNat hlt (by omega)
      rw [hcast] at hrec
      exact reachRoot_mono st (p.toNat + 1) i p hrec (by omega)

end TreeLemmas

/-! ## Claims about the message tree and the finish guard -/

/-- **C4** (code bug evidence): invoking `finish` while git reports a
perfectly clean working tree does not raise — the `no_changes` validation
error fires inside the guard but is swallowed by the guard's own blanket
`except Exception: pass`, so `finish` returns its argument and `run`
terminates successfully with an empty outcome. -/
theorem c4_finish_guard_never_raises :
    ReactAgent.finish gitClean "done" = "done" ∧
    ReactAgent.finishBody gitClean =
      .error "no_changes: No file modifications detected. Make a minimal edit before finishing." ∧
    (∃ stf, ReactAgent.run gitClean [] finishFirstOracle "t" 5 = .ok ("done", stf)) := by
  exact ⟨rfl, rfl, ⟨_, rfl⟩⟩

/-- **C6**: after any finite sequence of `addMessage`/backtrack operations
starting from a fresh agent, every non-root message id occurs in exactly one
parent's `children` list, each message's parent id is strictly less than its
own id with the root's parent being the sentinel `-1`, and following
`parent` links from any message id reaches the root within (number of
messages) steps. -/
theorem c6_tree_invariant (ops : List TreeOp) :
    (∀ i, i < (applyOps ReactAgent.freshAgent ops).id_to_message.length → 0 < i →
       childOcc (applyOps ReactAgent.freshAgent ops) i = 1) ∧
    (ReactAgent.msgAt (applyOps ReactAgent.freshAgent ops) 0).parent = -1 ∧
    (∀ i, i < (applyOps ReactAgent.freshAgent ops).id_to_message.length → 0 < i →
       0 ≤ (ReactAgent.msgAt (applyOps ReactAgent.freshAgent ops) i).parent ∧
       (ReactAgent.msgAt (applyOps ReactAgent.freshAgent ops) i).parent < (i : Int)) ∧
    (∀ i, i < (applyOps ReactAgent.freshAgent ops).id_to_message.length →
       reachRoot (applyOps ReactAgent.freshAgent ops)
         (applyOps ReactAgent.freshAgent ops).id_to_message.length (i : Int) = true) := by
  have h := treeInv_applyOps ReactAgent.freshAgent ops treeInv_freshAgent
  refine ⟨fun i hi h0 => h.2.2.2.2.2.2.2.2.2 i hi h0,
          h.2.2.2.2.2.2.1,
          fun i hi h0 => h.2.2.2.2.2.2.2.1 i hi h0,
          fun i hi => ?_⟩
  exact reachRoot_mono _ _ _ _ (reachRoot_of_inv _ h i hi) (by omega)

/-- Witness for C6 at the concrete operation sequence
add / backtrack-to-1 / add. -/
theorem c6_tree_invariant_witness :
    (0 < 2 ∧ 2 < (applyOps ReactAgent.freshAgent
        [TreeOp.add "assistant" "hi", TreeOp.backtrack "x" (some 1),
         TreeOp.add "assistant" "y"]).id_to_message.length) ∧
    childOcc (applyOps ReactAgent.freshAgent
        [TreeOp.add "assistant" "hi", TreeOp.backtrack "x" (some 1),
         TreeOp.add "assistant" "y"]) 2 = 1 ∧
    reachRoot (applyOps ReactAgent.freshAgent
        [TreeOp.add "assistant" "hi", TreeOp.backtrack "x" (some 1),
         TreeOp.add "assistant" "y"])
      (applyOps ReactAgent.freshAgent
        [TreeOp.add "assistant" "hi", TreeOp.backtrack "x" (some 1),
         TreeOp.add "assistant" "y"]).id_to_message.length (3 : Int) = true :=
  ⟨⟨by decide, by decide⟩,
   (c6_tree_invariant [TreeOp.add "assistant" "hi", TreeOp.backtrack "x" (some 1),
      TreeOp.add "assistant" "y"]).1 2 (by decide) (by decide),
   (c6_tree_invariant [TreeOp.add "assistant" "hi", TreeOp.backtrack "x" (some 1),
      TreeOp.add "assistant" "y"]).2.2.2 3 (by decide)⟩

/-- **C7**: for any tree containing a message with id 2, a backtrack to id 2
followed by `addMessage("assistant","x")` creates a new node with parent 2
appended to message 2's `children`, while message 2's previously recorded
children (as a prefix), its other fields, and every other message are left
unchanged — backtracking moves only the cursor and deletes nothing. -/
theorem c7_backtrack_rewrites_cursor_only (st : AgentState) (instr : String)
    (h2 : 2 < st.id_to_message.length) :
    let st1 := (ReactAgent.add_instructions_and_backtrack instr (some 2) st).2
    let nid := (ReactAgent.add_message "assistant" "x" st1).1
    let st2 := (ReactAgent.add_message "assistant" "x" st1).2
    nid = st.id_to_message.length ∧
    (ReactAgent.msgAt st2 nid).parent = 2 ∧
    (ReactAgent.msgAt st2 nid).role = "assistant" ∧
    (ReactAgent.msgAt st2 nid).content = "x" ∧
    (ReactAgent.msgAt st2 2).children = (ReactAgent.msgAt st 2).children ++ [nid] ∧
    (ReactAgent.msgAt st2 2).role = (ReactAgent.msgAt st 2).role ∧
    (ReactAgent.msgAt st2 2).content = (ReactAgent.msgAt st 2).content ∧
    (ReactAgent.msgAt st2 2).parent = (ReactAgent.msgAt st 2).parent ∧
    (∀ i, i < st.id_to_message.length → i ≠ 2 →
      ReactAgent.msgAt st2 i = ReactAgent.msgAt st i) := by
  intro st1 nid st2
  have hst1 : st1 = { st with instructions := instr, current_message_id := 2 } := by
    show (ReactAgent.add_instructions_and_backtrack instr (some 2) st).2 = _
    rw [aib_state]
    dsimp only
    rw [if_pos ⟨by omega, by exact_mod_cast h2⟩]
  have hmsg1 : ∀ i, ReactAgent.msgAt st1 i = ReactAgent.msgAt st i := by
    intro i; rw [hst1]; rfl
  have hlen1 : st1.id_to_message.length = st.id_to_message.length := by rw [hst1]
  have hcur : (0 : Int) ≤ st1.current_message_id := by rw [hst1]; norm_num
  have htn : st1.current_message_id.toNat = 2 := by rw [hst1]; rfl
  have hlt : st1.current_message_id.toNat < st1.id_to_message.length := by
    rw [htn, hlen1]; exact h2
  have hnid : nid = st.id_to_message.length := by
    show (ReactAgent.add_message "assistant" "x" st1).1 = _
    rw [(ReactAgent.add_message_spec "assistant" "x" st1 hcur).1, hlen1]
  have hnew := add_message_msgAt_new "assistant" "x" st1 hcur hlt
  have hpar := add_message_msgAt_parent "assistant" "x" st1 hcur hlt
  rw [htn] at hpar
  have hold : ∀ i, i < st.id_to_message.length → i ≠ 2 →
      ReactAgent.msgAt st2 i = ReactAgent.msgAt st i := by
    intro i hi hne
    have := add_message_msgAt_old "assistant" "x" st1 hcur i
      (by rw [hlen1]; exact hi) (by rw [htn]; exact hne)
    rw [this, hmsg1]
  refine ⟨hnid, ?_, ?_, ?_, ?_, ?_, ?_, ?_, hold⟩
  · show (ReactAgent.msgAt st2 nid).parent = 2
    rw [hnid, ← hlen1, hnew]
    rw [hst1]
  · rw [hnid, ← hlen1, hnew]
  · rw [hnid, ← hlen1, hnew]
  · rw [hpar, hmsg1, hnid, ← hlen1]
  · rw [hpar, hmsg1]
  · rw [hpar, hmsg1]
  · rw [hpar, hmsg1]

/-- Witness for C7 at a concrete three-message tree. -/
theorem c7_backtrack_rewrites_cursor_only_witness :
    2 < sample3.id_to_message.length ∧
    (ReactAgent.msgAt (ReactAgent.add_message "assistant" "x"
        (ReactAgent.add_instructions_and_backtrack "i" (some 2) sample3).2).2
      (ReactAgent.add_message "assistant" "x"
        (ReactAgent.add_instructions_and_backtrack "i" (some 2) sample3).2).1).parent = 2 ∧
    (ReactAgent.msgAt (ReactAgent.add_message "assistant" "x"
        (ReactAgent.add_instructions_and_backtrack "i" (some 2) sample3).2).2 2).children =
      (ReactAgent.msgAt sample3 2).children ++
        [(ReactAgent.add_message "assistant" "x"
            (ReactAgent.add_instructions_and_backtrack "i" (some 2) sample3).2).1] :=
  ⟨by decide,
   (c7_backtrack_rewrites_cursor_only sample3 "i" (by decide)).2.1,
   (c7_backtrack_rewrites_cursor_only sample3 "i" (by decide)).2.2.2.2.1⟩

/-- **C8 counterexample**: an out-of-range backtrack request (id 99 on a
three-message tree whose cursor is 2 and whose user-task node is 1) leaves
the cursor at 2 — it does *not* fall back to the user-task anchor, contrary
to the claim. -/
theorem c8_out_of_range_backtrack_counterexample :
    (ReactAgent.add_instructions_and_backtrack "retry" (some 99) sample3).2.current_message_id
        = 2 ∧
    sample3.user_message_index = 1 ∧
    ¬ ((ReactAgent.add_instructions_and_backtrack "retry" (some 99)
          sample3).2.current_message_id = (sample3.user_message_index : Int)) := by
  decide

/-- **C8 amended**: an out-of-range backtrack target does not crash and is
rejected: the reply is the invalid-id message, the state changes only in its
stored instructions — in particular the cursor is left unchanged, so (on any
state satisfying the tree invariant) it still refers to a valid existing
message id.  (The fallback to the user-task anchor applies only when the id
fails integer parsing, not when it is out of range.) -/
theorem c8_out_of_range_backtrack_amended (st : AgentState) (instr : String) (a : Int)
    (hout : ¬ (0 ≤ a ∧ a < (st.id_to_message.length : Int))) :
    (ReactAgent.add_instructions_and_backtrack instr (some a) st).1 =
      "Invalid backtrack id; instructions updated." ∧
    (ReactAgent.add_instructions_and_backtrack instr (some a) st).2 =
      { st with instructions := instr } ∧
    (TreeInv st →
      0 ≤ (ReactAgent.add_instructions_and_backtrack instr (some a) st).2.current_message_id ∧
      (ReactAgent.add_instructions_and_backtrack instr (some a) st).2.current_message_id <
        ((ReactAgent.add_instructions_and_backtrack instr (some a)
            st).2.id_to_message.length : Int)) := by
  have h1 : (ReactAgent.add_instructions_and_backtrack instr (some a) st).1 =
      "Invalid backtrack id; instructions updated." := by
    unfold ReactAgent.add_instructions_and_backtrack
    dsimp only
    rw [if_neg hout]
  have h2 : (ReactAgent.add_instructions_and_backtrack instr (some a) st).2 =
      { st with instructions := instr } := by
    rw [aib_state]
    dsimp only
    rw [if_neg hout]
  refine ⟨h1, h2, fun hinv => ?_⟩
  rw [h2]
  exact ⟨hinv.2.2.2.1, hinv.2.2.2.2.1⟩

/-- Witness for the amended C8 at a concrete out-of-range request. -/
theorem c8_out_of_range_backtrack_witness :
    ¬ (0 ≤ (99 : Int) ∧ (99 : Int) < (sample3.id_to_message.length : Int)) ∧
    (ReactAgent.add_instructions_and_backtrack "retry" (some 99) sample3).1 =
      "Invalid backtrack id; instructions updated." :=
  ⟨by decide, (c8_out_of_range_backtrack_amended sample3 "retry" 99 (by decide)).1⟩

/-! ## Claims about the context builders -/

theorem c9_parts_eq (st : AgentState)
    (hroot : (ReactAgent.msgAt st st.root_message_id.toNat).role = "system")
    (l : List Nat) :
    l.filterMap (fun mid =>
      if (ReactAgent.msgAt st mid).role = "system" ∧ (mid : Int) = st.root_message_id
      then none
      else some ("[" ++ (ReactAgent.msgAt st mid).role ++ "]\n" ++
        (ReactAgent.msgAt st mid).content ++ "\n")) =
    (l.filter (fun (mid : Nat) => (mid : Int) != st.root_message_id)).map
      (fun mid => "[" ++ (ReactAgent.msgAt st mid).role ++ "]\n" ++
        (ReactAgent.msgAt st mid).content ++ "\n") := by
  induction l with
  | nil => rfl
  | cons a t ih =>
    simp only [List.filterMap_cons, List.filter_cons]
    by_cases ha : (a : Int) = st.root_message_id
    · have hta : st.root_message_id.toNat = a := by rw [← ha]; exact Int.toNat_ofNat a
      have hrole : (ReactAgent.msgAt st a).role = "system" := by rw [← hta]; exact hroot
      simp [ha, hrole, ih]
    · simp [ha, ih]

/-- **C9 amended** (holds for src/simple_agent.py): the built context equals
the spec-worded rendering — the dynamic system block (prompt, tool
descriptions, format template) exactly once as the very first segment, and
every non-root node on the root-to-current path, including system-role
tool-result and feedback nodes, rendered as a plain labeled header plus its
content with nothing attached.  The only hypothesis is that the root node
carries the system role, which holds for every agent-produced state.
(src/agent.py violates the claim: see the counterexample.) -/
theorem c9_context_builder_amended (fm : List (String × Tool)) (st : AgentState)
    (hroot : (ReactAgent.msgAt st st.root_message_id.toNat).role = "system") :
    ReactAgent.build_context fm st = ReactAgent.build_context_spec fm st := by
  unfold ReactAgent.build_context ReactAgent.build_context_spec
  dsimp only
  congr 1
  congr 1
  exact c9_parts_eq st hroot (ReactAgent.visibleIds st)

/-- Witness for the amended C9 at a concrete state with a non-root
system-role tool-result node on the path. -/
theorem c9_context_builder_amended_witness :
    (ReactAgent.msgAt sampleSys sampleSys.root_message_id.toNat).role = "system" ∧
    ReactAgent.build_context (ReactAgent.initFunctionMap []) sampleSys =
      ReactAgent.build_context_spec (ReactAgent.initFunctionMap []) sampleSys :=
  ⟨by decide,
   c9_context_builder_amended (ReactAgent.initFunctionMap []) sampleSys (by decide)⟩

/-- **C9 counterexample** (src/agent.py): the renderer attaches the tool
descriptions and format template to a *non-root* system-role node (id 2,
role system, root id 0), so that node is not rendered as a plain labeled
header plus its content, and the dynamic block is not confined to the first
segment. -/
theorem c9_context_builder_counterexample :
    AgentPy.message_id_to_context (ReactAgent.initFunctionMap []) sampleSys 2 ≠
      AgentPy.message_header (ReactAgent.msgAt sampleSys 2) ++ "Result: ok" ++ "\n" ∧
    containsSub "--- AVAILABLE TOOLS ---".toList
      (AgentPy.message_id_to_context (ReactAgent.initFunctionMap []) sampleSys 2).toList
      = true ∧
    (2 : Int) ≠ sampleSys.root_message_id := by
  refine ⟨by decide, by decide, by decide⟩

/-! ## Lemmas about the run loop -/

theorem finish_returns (git : GitEnv) (r : String) : ReactAgent.finish git r = r := by
  unfold ReactAgent.finish
  cases ReactAgent.finishBody git <;> rfl

theorem set_user_prompt_length (task : String) (st : AgentState) :
    (ReactAgent.set_user_prompt task st).id_to_message.length =
      st.id_to_message.length := by
  simp [ReactAgent.set_user_prompt, ReactAgent.set_message, listModify_length]

/-- When every LLM call returns normally, `runLoop` returns normally: every
parse failure, unknown-tool dispatch, and tool error is handled inside the
iteration. -/
theorem runLoop_ok (git : GitEnv) (fm : List (String × Tool))
    (llm : ReactAgent.LLMOracle) (hok : ∀ i, ∃ s, llm i = .ok s) :
    ∀ fuel step st, ∃ r stf,
      ReactAgent.runLoop git fm llm fuel step st = .ok (r, stf) := by
  intro fuel
  induction fuel with
  | zero => intro step st; exact ⟨_, _, rfl⟩
  | succ fuel ih =>
    intro step st
    obtain ⟨s, hs⟩ := hok step
    unfold ReactAgent.runLoop
    dsimp only
    split
    · rename_i e heq
      rw [hs] at heq
      cases heq
    · rename_i response heq
      split
      · exact ih (step + 1) _
      · split
        · exact ih (step + 1) _
        · split
          · split <;> split <;> exact ih (step + 1) _
          · split
            · exact ⟨_, _, rfl⟩
            · exact ih (step + 1) _

/-- When every LLM response fails to parse, each iteration takes the
format-error branch, adding exactly two messages, and the loop returns the
step-limit sentinel after consuming all its fuel. -/
theorem runLoop_step_limit (git : GitEnv) (fm : List (String × Tool))
    (llm : ReactAgent.LLMOracle) (hok : ∀ i, ∃ s, llm i = .ok s)
    (hbad : ∀ i s, llm i = .ok s →
      ∃ e, ResponseParser.parseS (normalizeResponse s) = .error e) :
    ∀ fuel step st, ∃ stf,
      ReactAgent.runLoop git fm llm fuel step st =
          .ok (ReactAgent.step_limit_sentinel, stf) ∧
        stf.id_to_message.length = st.id_to_message.length + 2 * fuel := by
  intro fuel
  induction fuel with
  | zero => intro step st; exact ⟨st, rfl, by omega⟩
  | succ fuel ih =>
    intro step st
    obtain ⟨s, hs⟩ := hok step
    obtain ⟨e, he⟩ := hbad step s hs
    unfold ReactAgent.runLoop
    dsimp only
    split
    · rename_i e' heq
      rw [hs] at heq
      cases heq
    · rename_i response heq
      rw [hs] at heq
      injection heq with heq'
      subst heq'
      split
      · obtain ⟨stf, hr, hl⟩ := ih (step + 1) _
        refine ⟨stf, hr, ?_⟩
        rw [hl, ReactAgent.add_message_length, ReactAgent.add_message_length]
        omega
      · rename_i parsed heq2
        rw [he] at heq2
        cases heq2

/-! ## Claims about the run loop -/

/-- **C1 counterexample**: an LLM-call failure escapes
`ReactAgent.run` (src/simple_agent.py) — `llm.generate` is the one call of
the per-step iteration with no `try` around it, so `run` raises instead of
returning the step-limit sentinel. -/
theorem c1_llm_failure_escapes_counterexample :
    ReactAgent.run gitUnavailable [] (fun _ => .error "LLM down") "t" 3 =
      .error "LLM down" := rfl

/-- **C1 amended**: provided every LLM call returns normally, `run` returns
normally for every task and every budget — format errors, unknown tool
names, and tool execution errors are all contained inside the iteration —
and with a stub LLM none of whose responses parses, `run` returns the
step-limit sentinel after exactly `max_steps` iterations (two messages per
iteration on top of the two seed messages).  An LLM-call failure, by
contrast, escapes (see the counterexample); in src/agent.py the whole
iteration body is wrapped in `try`, so there the original claim holds. -/
theorem c1_run_step_errors_contained_amended (git : GitEnv) (ext : List Tool)
    (llm : ReactAgent.LLMOracle) (task : String) (max_steps : Nat)
    (hok : ∀ i, ∃ s, llm i = .ok s) :
    (∃ r stf, ReactAgent.run git ext llm task max_steps = .ok (r, stf)) ∧
    ((∀ i s, llm i = .ok s →
        ∃ e, ResponseParser.parseS (normalizeResponse s) = .error e) →
      ∃ stf, ReactAgent.run git ext llm task max_steps =
          .ok (ReactAgent.step_limit_sentinel, stf) ∧
        stf.id_to_message.length = 2 + 2 * max_steps) := by
  constructor
  · exact runLoop_ok git (ReactAgent.initFunctionMap ext) llm hok max_steps 0 _
  · intro hbad
    obtain ⟨stf, hr, hl⟩ :=
      runLoop_step_limit git (ReactAgent.initFunctionMap ext) llm hok hbad max_steps 0
        (ReactAgent.set_user_prompt task ReactAgent.freshAgent)
    refine ⟨stf, hr, ?_⟩
    rw [hl, set_user_prompt_length]
    rfl

/-- Witness for the amended C1: a stub LLM that always answers with text
containing no call markers. -/
theorem c1_run_step_errors_contained_amended_witness :
    (∀ i : Nat, ∃ s, (fun (_ : Nat) => (Except.ok "no call" : Except String String)) i
        = .ok s) ∧
    (∃ stf, ReactAgent.run gitUnavailable [] (fun _ => .ok "no call") "t" 2 =
        .ok (ReactAgent.step_limit_sentinel, stf) ∧
      stf.id_to_message.length = 2 + 2 * 2) :=
  ⟨fun _ => ⟨"no call", rfl⟩,
   (c1_run_step_errors_contained_amended gitUnavailable [] (fun _ => .ok "no call") "t" 2
      (fun _ => ⟨"no call", rfl⟩)).2
    (fun i s hs => by
      cases hs
      exact ⟨"Missing ----END_FUNCTION_CALL---- marker in response", rfl⟩)⟩

/-- **C5**: if the first LLM response decodes to a call of `finish` with
argument `result="done"`, then `run` returns `"done"` after the first
iteration: the final state holds exactly one message beyond the two seed
messages (the single assistant response), and since the stub oracle may fail
on every call after the first while `run` still returns normally, no second
LLM call is made. -/
theorem c5_finish_short_circuits (git : GitEnv) (ext : List Tool)
    (hlookup : dictFind (ReactAgent.initFunctionMap ext) "finish" =
      some ReactAgent.finishTool)
    (llm : ReactAgent.LLMOracle) (task : String) (max_steps : Nat)
    (hpos : 0 < max_steps) (t : String) (h0 : llm 0 = .ok t) (th : List Char)
    (hp : ResponseParser.parseS (normalizeResponse t) =
      .ok ⟨th, "finish".toList, [("result".toList, "done".toList)]⟩) :
    ∃ stf, ReactAgent.run git ext llm task max_steps = .ok ("done", stf) ∧
      stf.id_to_message.length = 3 := by
  obtain ⟨m, rfl⟩ : ∃ m, max_steps = m + 1 := ⟨max_steps - 1, by omega⟩
  unfold ReactAgent.run ReactAgent.runLoop
  dsimp only
  split
  · rename_i e heq
    rw [h0] at heq
    cases heq
  · rename_i response heq
    rw [h0] at heq
    injection heq with heq'
    subst heq'
    split
    · rename_i a heq2
      rw [hp] at heq2
      cases heq2
    · rename_i parsed heq2
      rw [hp] at heq2
      injection heq2 with heq3
      subst heq3
      dsimp only
      have hname : ({ data := "finish".toList } : String) = "finish" := rfl
      rw [hname, hlookup]
      dsimp only
      have hfn : ∀ stx : AgentState, ReactAgent.finishTool.fn git
          (List.map (fun p => ((⟨p.1⟩ : String), (⟨sanitizeArg p.2⟩ : String)))
            [("result".toList, "done".toList)]) stx =
          .ok (ReactAgent.finish git "done", stx) := by
        intro stx
        show ReactAgent.finishTool.fn git [("result", "done")] stx = _
        rfl
      rw [hfn]
      dsimp only
      rw [if_pos rfl, finish_returns]
      refine ⟨_, rfl, ?_⟩
      rw [ReactAgent.add_message_length, set_user_prompt_length]
      rfl

/-- Witness for C5: the canonical finish call as the first stub response. -/
theorem c5_finish_short_circuits_witness :
    (dictFind (ReactAgent.initFunctionMap []) "finish" = some ReactAgent.finishTool) ∧
    0 < 2 ∧ finishFirstOracle 0 = .ok finishDoneText ∧
    ResponseParser.parseS (normalizeResponse finishDoneText) =
      .ok ⟨[], "finish".toList, [("result".toList, "done".toList)]⟩ ∧
    (∃ stf, ReactAgent.run gitUnavailable [] finishFirstOracle "t" 2 =
        .ok ("done", stf) ∧ stf.id_to_message.length = 3) :=
  ⟨rfl, by decide, rfl, by rfl,
   c5_finish_short_circuits gitUnavailable [] rfl finishFirstOracle "t" 2 (by decide)
     finishDoneText rfl [] (by rfl)⟩

/-! ## Lemmas about substring search -/

theorem leadsWith_iff (n h : List Char) :
    leadsWith n h = true ↔ ∃ t, h = n ++ t := by
  induction n generalizing h with
  | nil => simp [leadsWith]
  | cons a as ih =>
    cases h with
    | nil =>
      simp only [leadsWith]
      constructor
      · intro hfalse; cases hfalse
      · rintro ⟨t, ht⟩; cases ht
    | cons b bs =>
      simp only [leadsWith, Bool.and_eq_true, decide_eq_true_eq, ih]
      constructor
      · rintro ⟨rfl, t, rfl⟩; exact ⟨t, rfl⟩
      · rintro ⟨t, ht⟩
        injection ht with h1 h2
        exact ⟨h1.symm, t, h2⟩

theorem leadsWith_self_append (n t : List Char) : leadsWith n (n ++ t) = true :=
  (leadsWith_iff n (n ++ t)).mpr ⟨t, rfl⟩

theorem leadsWith_length_le (n h : List Char) (hl : leadsWith n h = true) :
    n.length ≤ h.length := by
  obtain ⟨t, rfl⟩ := (leadsWith_iff n h).mp hl
  simp

theorem leadsWith_nl_bound (n x y : List Char) (hnl : '\n' ∉ n)
    (h : leadsWith n (x ++ '\n' :: y) = true) :
    leadsWith n x = true ∧ n.length ≤ x.length := by
  induction n generalizing x with
  | nil => simp [leadsWith]
  | cons a as ih =>
    cases x with
    | nil =>
      simp only [List.nil_append, leadsWith, Bool.and_eq_true, decide_eq_true_eq] at h
      exact absurd (h.1 ▸ List.mem_cons_self a as) hnl
    | cons b bs =>
      simp only [List.cons_append, leadsWith, Bool.and_eq_true, decide_eq_true_eq] at h ⊢
      obtain ⟨h1, h2⟩ := ih bs (fun hm => hnl (List.mem_cons_of_mem a hm)) h.2
      refine ⟨⟨h.1, h1⟩, by simpa using h2⟩

theorem leadsWith_crossing (n x y : List Char) (j : Nat) (hnl : '\n' ∉ n)
    (h : leadsWith n ((x ++ '\n' :: y).drop j) = true) :
    (j + n.length ≤ x.length ∧ leadsWith n (x.drop j) = true) ∨
    (x.length < j ∧ leadsWith n (y.drop (j - x.length - 1)) = true) := by
  induction j generalizing x with
  | zero =>
    obtain ⟨h1, h2⟩ := leadsWith_nl_bound n x y hnl (by simpa using h)
    exact Or.inl ⟨by omega, by simpa using h1⟩
  | succ j ih =>
    cases x with
    | nil =>
      right
      refine ⟨by simp, ?_⟩
      simpa using h
    | cons b bs =>
      have h' : leadsWith n ((bs ++ '\n' :: y).drop j) = true := by
        simpa using h
      rcases ih bs h' with ⟨hle, hl⟩ | ⟨hlt, hl⟩
      · left
        refine ⟨by simp; omega, by simpa using hl⟩
      · right
        refine ⟨by simp; omega, ?_⟩
        simpa [Nat.succ_sub_one] using hl

theorem containsSub_iff (n h : List Char) :
    containsSub n h = true ↔ ∃ j, leadsWith n (h.drop j) = true := by
  induction h with
  | nil =>
    simp only [containsSub]
    constructor
    · intro hl; exact ⟨0, by simpa using hl⟩
    · rintro ⟨j, hj⟩; simpa using hj
  | cons c t ih =>
    simp only [containsSub, Bool.or_eq_true, ih]
    constructor
    · rintro (hl | ⟨j, hj⟩)
      · exact ⟨0, by simpa using hl⟩
      · exact ⟨j + 1, by simpa using hj⟩
    · rintro ⟨j, hj⟩
      cases j with
      | zero => exact Or.inl (by simpa using hj)
      | succ j => exact Or.inr ⟨j, by simpa using hj⟩

theorem containsSub_false_no_leads (n h : List Char) (hc : containsSub n h = false) :
    ∀ j, leadsWith n (h.drop j) = false := by
  intro j
  by_contra hne
  have : containsSub n h = true :=
    (containsSub_iff n h).mpr ⟨j, by simpa using hne⟩
  rw [this] at hc
  cases hc

theorem containsSub_nl_false (n x y : List Char) (hnl : '\n' ∉ n)
    (hx : containsSub n x = false) (hy : containsSub n y = false) :
    containsSub n (x ++ '\n' :: y) = false := by
  by_contra hne
  have h : containsSub n (x ++ '\n' :: y) = true := by
    cases hc : containsSub n (x ++ '\n' :: y)
    · rw [hc] at hne; exact absurd rfl hne
    · rfl
  obtain ⟨j, hj⟩ := (containsSub_iff _ _).mp h
  rcases leadsWith_crossing n x y j hnl hj with ⟨_, hl⟩ | ⟨_, hl⟩
  · rw [containsSub_false_no_leads n x hx j] at hl; cases hl
  · rw [containsSub_false_no_leads n y hy _] at hl; cases hl

theorem findSub_eq_some (sep h : List Char) (i : Nat)
    (hi : leadsWith sep (h.drop i) = true)
    (hmin : ∀ j, j < i → leadsWith sep (h.drop j) = false) :
    findSub sep h = some i := by
  induction h generalizing i with
  | nil =>
    cases i with
    | zero =>
      simp only [List.drop_nil] at hi
      simp [findSub, hi]
    | succ i =>
      have h0 := hmin 0 (by omega)
      simp only [List.drop_nil] at hi h0
      rw [hi] at h0
      cases h0
  | cons c t ih =>
    cases i with
    | zero =>
      simp only [List.drop_zero] at hi
      simp [findSub, hi]
    | succ i =>
      have h0 := hmin 0 (by omega)
      simp only [List.drop_zero] at h0
      have ht : findSub sep t = some i := by
        apply ih
        · simpa using hi
        · intro j hj
          have := hmin (j + 1) (by omega)
          simpa using this
      simp [findSub, h0, ht]

theorem findSub_eq_none (sep h : List Char) (hc : containsSub sep h = false) :
    findSub sep h = none := by
  induction h with
  | nil =>
    simp only [containsSub] at hc
    simp [findSub, hc]
  | cons c t ih =>
    simp only [containsSub, Bool.or_eq_false_iff] at hc
    simp [findSub, hc.1, ih hc.2]

theorem leadsWith_refl (n : List Char) : leadsWith n n = true :=
  (leadsWith_iff n n).mpr ⟨[], by simp⟩

theorem rfindFrom_here (needle hay : List Char) (i : Nat)
    (h : leadsWith needle (hay.drop i) = true) : rfindFrom needle hay i = some i := by
  cases i with
  | zero =>
    simp only [List.drop_zero] at h
    simp [rfindFrom, h]
  | succ i => simp [rfindFrom, h]

theorem rfindFrom_last (needle hay : List Char) (i0 : Nat)
    (h0 : leadsWith needle (hay.drop i0) = true)
    (hmax : ∀ j, i0 < j → leadsWith needle (hay.drop j) = false) :
    ∀ i, i0 ≤ i → rfindFrom needle hay i = some i0 := by
  intro i
  induction i with
  | zero =>
    intro hle
    have h00 : i0 = 0 := by omega
    subst h00
    exact rfindFrom_here needle hay 0 h0
  | succ i ih =>
    intro hle
    by_cases heq : i0 = i + 1
    · subst heq
      exact rfindFrom_here needle hay (i + 1) h0
    · have hj := hmax (i + 1) (by omega)
      simp [rfindFrom, hj, ih (by omega)]

theorem pyRFind_append_self (needle pre : List Char) :
    pyRFind needle (pre ++ needle) (pre ++ needle).length = some pre.length := by
  unfold pyRFind
  rw [if_pos (by simp)]
  have hlen : (pre ++ needle).length - needle.length = pre.length := by simp
  rw [hlen]
  apply rfindFrom_here
  rw [List.drop_left]
  exact leadsWith_refl needle

theorem pyRFind_last (needle hay : List Char) (endPos i0 : Nat)
    (h0 : leadsWith needle (hay.drop i0) = true)
    (hmax : ∀ j, i0 < j → leadsWith needle (hay.drop j) = false)
    (hle : i0 + needle.length ≤ endPos) :
    pyRFind needle hay endPos = some i0 := by
  unfold pyRFind
  rw [if_pos (by omega)]
  exact rfindFrom_last needle hay i0 h0 hmax _ (by omega)

/-! ## Lemmas about `pySplit` -/

theorem findSub_some_leads (sep h : List Char) (i : Nat) (hf : findSub sep h = some i) :
    leadsWith sep (h.drop i) = true := by
  induction h generalizing i with
  | nil =>
    simp only [findSub] at hf
    split at hf
    · injection hf with hf'
      subst hf'
      rw [List.drop_nil]
      assumption
    · cases hf
  | cons c t ih =>
    simp only [findSub] at hf
    split at hf
    · injection hf with hf'
      subst hf'
      rw [List.drop_zero]
      assumption
    · cases hft : findSub sep t with
      | none => rw [hft] at hf; cases hf
      | some j =>
        rw [hft] at hf
        have hf2 : some (j + 1) = some i := hf
        injection hf2 with hf'
        subst hf'
        simpa using ih j hft

theorem findSub_some_nonempty (sep h : List Char) (i : Nat) (hsep : sep ≠ [])
    (hf : findSub sep h = some i) : i + sep.length ≤ h.length ∧ 1 ≤ h.length := by
  have hl := findSub_some_leads sep h i hf
  have := leadsWith_length_le sep _ hl
  rw [List.length_drop] at this
  have hs : 1 ≤ sep.length := by
    cases sep with
    | nil => exact absurd rfl hsep
    | cons a b => simp
  omega

theorem pySplitGo_fuel (sep : List Char) (hsep : sep ≠ []) :
    ∀ f s g, s.length < f → s.length < g →
      pySplitGo sep f s = pySplitGo sep g s := by
  intro f
  induction f with
  | zero => intro s g h1 _; omega
  | succ f ih =>
    intro s g h1 h2
    obtain ⟨g', rfl⟩ : ∃ g', g = g' + 1 := ⟨g - 1, by omega⟩
    show pySplitGo sep (f + 1) s = pySplitGo sep (g' + 1) s
    unfold pySplitGo
    cases hf : findSub sep s with
    | none => rfl
    | some i =>
      obtain ⟨hle, hpos⟩ := findSub_some_nonempty sep s i hsep hf
      have hs : 1 ≤ sep.length := by
        cases sep with
        | nil => exact absurd rfl hsep
        | cons a b => simp
      have hdrop : (s.drop (i + sep.length)).length < s.length := by
        rw [List.length_drop]
        omega
      show s.take i :: pySplitGo sep f (s.drop (i + sep.length)) =
        s.take i :: pySplitGo sep g' (s.drop (i + sep.length))
      rw [ih (s.drop (i + sep.length)) g' (by omega) (by omega)]

theorem pySplit_of_none (sep s : List Char) (hf : findSub sep s = none) :
    pySplit sep s = [s] := by
  by_cases hs : sep = [] <;> simp [pySplit, hs, pySplitGo, hf]

theorem pySplit_last (sep s : List Char) (hc : containsSub sep s = false) :
    pySplit sep s = [s] :=
  pySplit_of_none sep s (findSub_eq_none sep s hc)

theorem pySplit_of_some (sep s : List Char) (i : Nat) (hsep : sep ≠ [])
    (hf : findSub sep s = some i) :
    pySplit sep s = s.take i :: pySplit sep (s.drop (i + sep.length)) := by
  unfold pySplit
  rw [if_neg hsep, if_neg hsep]
  conv_lhs => rw [pySplitGo]
  rw [hf]
  obtain ⟨hle, hpos⟩ := findSub_some_nonempty sep s i hsep hf
  have hs : 1 ≤ sep.length := by
    cases sep with
    | nil => exact absurd rfl hsep
    | cons a b => simp
  show s.take i :: pySplitGo sep s.length (s.drop (i + sep.length)) =
    s.take i :: pySplitGo sep ((s.drop (i + sep.length)).length + 1) (s.drop (i + sep.length))
  congr 1
  apply pySplitGo_fuel sep hsep
  · rw [List.length_drop]; omega
  · rw [List.length_drop]; omega

theorem pySplit_cons (sep x z : List Char) (hsep : sep ≠ []) (hnl : '\n' ∉ sep)
    (hx : containsSub sep x = false) :
    pySplit sep (x ++ '\n' :: (sep ++ z)) = (x ++ ['\n']) :: pySplit sep z := by
  have hregroup : x ++ '\n' :: (sep ++ z) = (x ++ ['\n']) ++ (sep ++ z) := by
    simp
  have hf : findSub sep (x ++ '\n' :: (sep ++ z)) = some (x.length + 1) := by
    apply findSub_eq_some
    · rw [hregroup]
      have : x.length + 1 = (x ++ ['\n']).length := by simp
      rw [this, List.drop_left]
      exact leadsWith_self_append sep z
    · intro j hj
      cases hl : leadsWith sep ((x ++ '\n' :: (sep ++ z)).drop j)
      · rfl
      · exfalso
        rcases leadsWith_crossing sep x (sep ++ z) j hnl hl with ⟨hle, hlx⟩ | ⟨hlt, _⟩
        · rw [containsSub_false_no_leads sep x hx j] at hlx
          cases hlx
        · omega
  rw [pySplit_of_some sep _ _ hsep hf]
  congr 1
  · rw [hregroup]
    have : x.length + 1 = (x ++ ['\n']).length := by simp
    rw [this, List.take_left]
  · congr 1
    rw [hregroup]
    have h1 : x.length + 1 + sep.length = ((x ++ ['\n']) ++ sep).length := by
      simp only [List.length_append, List.length_cons, List.length_nil]
    rw [h1, ← List.append_assoc, List.drop_left]

/-! ## Lemmas about `strip` -/

theorem dropWhile_all {p : Char → Bool} (a b : List Char) (h : ∀ c ∈ a, p c = true) :
    List.dropWhile p (a ++ b) = List.dropWhile p b := by
  induction a with
  | nil => rfl
  | cons c cs ih =>
    rw [List.cons_append, List.dropWhile_cons, h c (List.mem_cons_self c cs)]
    exact ih (fun d hd => h d (List.mem_cons_of_mem c hd))

theorem dropWhile_len_le {p : Char → Bool} (l : List Char) :
    (List.dropWhile p l).length ≤ l.length := by
  induction l with
  | nil => simp
  | cons c t ih =>
    rw [List.dropWhile_cons]
    cases hp : p c
    · simp
    · rw [if_pos rfl]
      rw [List.length_cons]
      omega

theorem dropWhile_cons_eq_self {p : Char → Bool} (c : Char) (t : List Char)
    (h : List.dropWhile p (c :: t) = c :: t) : p c = false := by
  cases hp : p c
  · rfl
  · exfalso
    rw [List.dropWhile_cons, hp] at h
    have := congrArg List.length h
    rw [if_pos rfl, List.length_cons] at this
    have hle := dropWhile_len_le (p := p) t
    omega

theorem dropWhile_length_eq {p : Char → Bool} (l : List Char)
    (h : (List.dropWhile p l).length = l.length) : List.dropWhile p l = l := by
  induction l with
  | nil => rfl
  | cons c t ih =>
    rw [List.dropWhile_cons] at h ⊢
    cases hp : p c
    · simp
    · exfalso
      rw [hp, if_pos rfl, List.length_cons] at h
      have hle := dropWhile_len_le (p := p) t
      omega

theorem rstrip_length_le (x : List Char) : (pyRStrip x).length ≤ x.length := by
  unfold pyRStrip
  rw [List.length_reverse]
  calc (List.dropWhile isPySpace x.reverse).length
      ≤ x.reverse.length := dropWhile_len_le x.reverse
    _ = x.length := List.length_reverse x

theorem lstrip_rstrip_of_strip (s : List Char) (h : pyStrip s = s) :
    pyLStrip s = s ∧ pyRStrip s = s := by
  have h3 : (pyStrip s).length = s.length := by rw [h]
  unfold pyStrip at h3
  have h1 : (pyLStrip s).length ≤ s.length := dropWhile_len_le s
  have h2 := rstrip_length_le (pyLStrip s)
  have h4 : (pyLStrip s).length = s.length := by omega
  have h5 : pyLStrip s = s := dropWhile_length_eq s h4
  refine ⟨h5, ?_⟩
  unfold pyStrip at h
  rw [h5] at h
  exact h

theorem rstrip_rev (v : List Char) (h : pyRStrip v = v) :
    List.dropWhile isPySpace v.reverse = v.reverse := by
  unfold pyRStrip at h
  have := congrArg List.reverse h
  simpa using this

theorem lstrip_append_of_self (s t : List Char) (h : pyLStrip s = s) (hne : s ≠ []) :
    pyLStrip (s ++ t) = s ++ t := by
  cases s with
  | nil => exact absurd rfl hne
  | cons c cs =>
    have hc : isPySpace c = false := dropWhile_cons_eq_self c cs h
    show List.dropWhile isPySpace (c :: (cs ++ t)) = c :: cs ++ t
    rw [List.dropWhile_cons, hc]
    simp

theorem rstrip_append_ws (x w : List Char) (h : ∀ c ∈ w, isPySpace c = true) :
    pyRStrip (x ++ w) = pyRStrip x := by
  unfold pyRStrip
  rw [List.reverse_append, dropWhile_all _ _ (by
    intro c hc
    exact h c (by simpa using hc))]

theorem rstrip_append_of_self (x v : List Char) (h : pyRStrip v = v) (hne : v ≠ []) :
    pyRStrip (x ++ v) = x ++ v := by
  have hrev := rstrip_rev v h
  obtain ⟨c, cs, hc⟩ : ∃ c cs, v.reverse = c :: cs := by
    cases hv : v.reverse with
    | nil => exact absurd (by simpa using hv) hne
    | cons c cs => exact ⟨c, cs, rfl⟩
  have hcfalse : isPySpace c = false := by
    apply dropWhile_cons_eq_self c cs
    rw [← hc]
    exact hrev
  unfold pyRStrip
  rw [List.reverse_append, hc, List.cons_append, List.dropWhile_cons, hcfalse]
  have : (c :: (cs ++ x.reverse)).reverse = x ++ v := by
    rw [← List.cons_append, ← hc]
    simp
  simpa using this

theorem lstrip_cons_nl (s : List Char) : pyLStrip ('\n' :: s) = pyLStrip s := by
  unfold pyLStrip
  rw [List.dropWhile_cons, if_pos (show isPySpace '\n' = true by rfl)]

/-- The workhorse `strip` computation: a newline, then a
strip-invariant nonempty core, then trailing whitespace. -/
theorem strip_wrap (core w : List Char) (hcore : pyStrip core = core)
    (hcne : core ≠ []) (hw : ∀ c ∈ w, isPySpace c = true) :
    pyStrip ('\n' :: (core ++ w)) = core := by
  obtain ⟨hl, hr⟩ := lstrip_rstrip_of_strip core hcore
  unfold pyStrip
  rw [lstrip_cons_nl, lstrip_append_of_self core w hl hcne,
    rstrip_append_ws core w hw, hr]

/-! ## Lemmas about first-line splitting and dict insertion -/

theorem takeLine_no_nl (k : List Char) (h : '\n' ∉ k) : takeLine k = k := by
  unfold takeLine
  induction k with
  | nil => rfl
  | cons c t ih =>
    have hc : c ≠ '\n' := fun he => h (he ▸ List.mem_cons_self c t)
    have ht : '\n' ∉ t := fun hm => h (List.mem_cons_of_mem c hm)
    rw [List.takeWhile_cons, if_pos (by simp [hc]), ih ht]

theorem dropLine_no_nl (k : List Char) (h : '\n' ∉ k) : dropLine k = none := by
  unfold dropLine
  have hall : List.dropWhile (fun c => decide (c ≠ '\n')) (k ++ []) =
      List.dropWhile (fun c => decide (c ≠ '\n')) [] := by
    apply dropWhile_all
    intro c hc
    simp only [decide_eq_true_eq]
    exact fun he => h (he ▸ hc)
  rw [List.append_nil] at hall
  rw [hall]
  rfl

theorem takeLine_append_nl (k r : List Char) (h : '\n' ∉ k) :
    takeLine (k ++ '\n' :: r) = k := by
  unfold takeLine
  induction k with
  | nil =>
    rw [List.nil_append, List.takeWhile_cons, if_neg (by simp)]
  | cons c t ih =>
    have hc : c ≠ '\n' := fun he => h (he ▸ List.mem_cons_self c t)
    have ht : '\n' ∉ t := fun hm => h (List.mem_cons_of_mem c hm)
    rw [List.cons_append, List.takeWhile_cons, if_pos (by simp [hc]), ih ht]

theorem dropLine_append_nl (k r : List Char) (h : '\n' ∉ k) :
    dropLine (k ++ '\n' :: r) = some r := by
  unfold dropLine
  have hall : List.dropWhile (fun c => decide (c ≠ '\n')) (k ++ '\n' :: r) =
      List.dropWhile (fun c => decide (c ≠ '\n')) ('\n' :: r) := by
    apply dropWhile_all
    intro c hc
    simp only [decide_eq_true_eq]
    exact fun he => h (he ▸ hc)
  rw [hall, List.dropWhile_cons]
  simp

theorem pyDictInsert_fresh (d : List (List Char × List Char)) (k v : List Char)
    (h : d.any (·.1 = k) = false) : pyDictInsert d k v = d ++ [(k, v)] := by
  unfold pyDictInsert
  simp [h]

/-! ## Shape lemmas for the stripped call body -/

section CodecShapes

open ResponseParser

theorem strip_name_part (n : List Char) (hn : pyStrip n = n) (hn0 : n ≠ []) :
    pyStrip (n ++ ['\n']) = n := by
  obtain ⟨hl, hr⟩ := lstrip_rstrip_of_strip n hn
  unfold pyStrip
  rw [lstrip_append_of_self n _ hl hn0, rstrip_append_ws n _ (by decide), hr]

theorem strip_body_noargs (n : List Char) (hn : pyStrip n = n) (hn0 : n ≠ []) :
    pyStrip ('\n' :: (n ++ ['\n'])) = n :=
  strip_wrap n ['\n'] hn hn0 (by decide)

theorem strip_mid_core (k v : List Char) (hk : pyStrip k = k) (hk0 : k ≠ [])
    (hv : pyRStrip v = v) (hve : v ≠ []) :
    pyStrip (k ++ '\n' :: v) = k ++ '\n' :: v := by
  obtain ⟨hkl, hkr⟩ := lstrip_rstrip_of_strip k hk
  unfold pyStrip
  rw [lstrip_append_of_self k _ hkl hk0]
  rw [show k ++ '\n' :: v = (k ++ ['\n']) ++ v from by simp]
  rw [rstrip_append_of_self _ v hv hve]

theorem strip_part_mid (k v : List Char) (hk : pyStrip k = k) (hk0 : k ≠ [])
    (hv : pyRStrip v = v) :
    pyStrip ('\n' :: (k ++ '\n' :: (v ++ ['\n']))) =
      (if v = [] then k else k ++ '\n' :: v) := by
  by_cases hve : v = []
  · subst hve
    rw [if_pos rfl]
    rw [show (k ++ '\n' :: ([] ++ ['\n'])) = k ++ ['\n', '\n'] from by simp]
    exact strip_wrap k ['\n', '\n'] hk hk0 (by decide)
  · rw [if_neg hve]
    rw [show (k ++ '\n' :: (v ++ ['\n'])) = (k ++ '\n' :: v) ++ ['\n'] from by simp]
    exact strip_wrap (k ++ '\n' :: v) ['\n'] (strip_mid_core k v hk hk0 hv hve)
      (by simp [hk0]) (by decide)

theorem strip_part_last (k v : List Char) (hk : pyStrip k = k) (hk0 : k ≠ [])
    (hv : pyRStrip v = v) :
    pyStrip ('\n' :: (k ++ (if v = [] then [] else '\n' :: v))) =
      (if v = [] then k else k ++ '\n' :: v) := by
  by_cases hve : v = []
  · rw [if_pos hve, if_pos hve]
    have := strip_wrap k [] hk hk0 (by simp)
    simpa using this
  · rw [if_neg hve, if_neg hve]
    have := strip_wrap (k ++ '\n' :: v) [] (strip_mid_core k v hk hk0 hv hve)
      (by simp [hk0]) (by simp)
    simpa using this

theorem rstrip_chunks (args : List (List Char × List Char))
    (h : ∀ p ∈ args, WFArg p.1 p.2) (hne : args ≠ []) :
    ∀ x, pyRStrip (x ++ chunksOf args) = x ++ strippedChunks args := by
  induction args with
  | nil => exact absurd rfl hne
  | cons hd tl ih =>
    obtain ⟨k, v⟩ := hd
    intro x
    obtain ⟨hk_strip, hk0, hknl, hkAS, hkBC, hv_rstrip, hvAS, hvBC⟩ :=
      h (k, v) (List.mem_cons_self _ _)
    obtain ⟨hkl, hkr⟩ := lstrip_rstrip_of_strip k hk_strip
    cases tl with
    | nil =>
      by_cases hve : v = []
      · subst hve
        rw [show x ++ chunksOf [(k, [])] = (x ++ (AS ++ '\n' :: k)) ++ ['\n', '\n'] from by
          simp [chunksOf, encodeArg]]
        rw [rstrip_append_ws _ _ (by decide)]
        rw [show x ++ (AS ++ '\n' :: k) = (x ++ (AS ++ ['\n'])) ++ k from by simp]
        rw [rstrip_append_of_self _ k hkr hk0]
        simp [strippedChunks]
      · rw [show x ++ chunksOf [(k, v)] =
            (x ++ (AS ++ '\n' :: (k ++ '\n' :: v))) ++ ['\n'] from by
          simp [chunksOf, encodeArg]]
        rw [rstrip_append_ws _ _ (by decide)]
        rw [show x ++ (AS ++ '\n' :: (k ++ '\n' :: v)) =
            (x ++ (AS ++ '\n' :: (k ++ ['\n']))) ++ v from by simp]
        rw [rstrip_append_of_self _ v hv_rstrip hve]
        simp [strippedChunks, hve]
    | cons b rest =>
      have hsub : ∀ p ∈ b :: rest, WFArg p.1 p.2 :=
        fun p hp => h p (List.mem_cons_of_mem _ hp)
      rw [show x ++ chunksOf ((k, v) :: b :: rest) =
          (x ++ encodeArg k v) ++ chunksOf (b :: rest) from by simp [chunksOf]]
      rw [ih hsub (by simp) (x ++ encodeArg k v)]
      simp [strippedChunks, encodeArg]

theorem strip_body_args (n : List Char)
    (args : List (List Char × List Char)) (hn : pyStrip n = n) (hn0 : n ≠ [])
    (h : ∀ p ∈ args, WFArg p.1 p.2) (hne : args ≠ []) :
    pyStrip ('\n' :: (n ++ '\n' :: chunksOf args)) =
      n ++ '\n' :: strippedChunks args := by
  obtain ⟨hl, hr⟩ := lstrip_rstrip_of_strip n hn
  unfold pyStrip
  rw [lstrip_cons_nl, lstrip_append_of_self n _ hl hn0]
  rw [show n ++ '\n' :: chunksOf args = (n ++ ['\n']) ++ chunksOf args from by simp]
  rw [rstrip_chunks args h hne (n ++ ['\n'])]
  simp

theorem chunksOf_no_BC (args : List (List Char × List Char))
    (h : ∀ p ∈ args, WFArg p.1 p.2) :
    containsSub BC (chunksOf args ++ EC) = false := by
  induction args with
  | nil =>
    rw [show chunksOf [] ++ EC = EC from by simp [chunksOf]]
    decide
  | cons hd tl ih =>
    obtain ⟨k, v⟩ := hd
    obtain ⟨hk_strip, hk0, hknl, hkAS, hkBC, hv_rstrip, hvAS, hvBC⟩ :=
      h (k, v) (List.mem_cons_self _ _)
    have hsub : ∀ p ∈ tl, WFArg p.1 p.2 := fun p hp => h p (List.mem_cons_of_mem _ hp)
    rw [show chunksOf ((k, v) :: tl) ++ EC =
        AS ++ '\n' :: (k ++ '\n' :: (v ++ '\n' :: (chunksOf tl ++ EC))) from by
      simp [chunksOf, encodeArg]]
    apply containsSub_nl_false _ _ _ (by decide) (by decide)
    apply containsSub_nl_false _ _ _ (by decide) hkBC
    exact containsSub_nl_false _ _ _ (by decide) hvBC (ih hsub)

end CodecShapes

section CodecSplit

open ResponseParser

theorem split_stripped (args : List (List Char × List Char))
    (h : ∀ p ∈ args, WFArg p.1 p.2) (hne : args ≠ []) :
    ∀ x, containsSub AS x = false →
      pySplit AS (x ++ '\n' :: strippedChunks args) = (x ++ ['\n']) :: partsOf args := by
  induction args with
  | nil => exact absurd rfl hne
  | cons hd tl ih =>
    obtain ⟨k, v⟩ := hd
    intro x hx
    obtain ⟨hk_strip, hk0, hknl, hkAS, hkBC, hv_rstrip, hvAS, hvBC⟩ :=
      h (k, v) (List.mem_cons_self _ _)
    cases tl with
    | nil =>
      rw [show x ++ '\n' :: strippedChunks [(k, v)] =
          x ++ '\n' :: (AS ++ ('\n' :: (k ++ (if v = [] then [] else '\n' :: v))))
          from by simp [strippedChunks]]
      rw [pySplit_cons AS x _ (by decide) (by decide) hx]
      have hcs : containsSub AS ('\n' :: (k ++ (if v = [] then [] else '\n' :: v)))
          = false := by
        rw [show ('\n' :: (k ++ (if v = [] then [] else '\n' :: v))) =
            [] ++ '\n' :: (k ++ (if v = [] then [] else '\n' :: v)) from rfl]
        apply containsSub_nl_false _ _ _ (by decide) (by decide)
        by_cases hve : v = []
        · simpa [hve] using hkAS
        · rw [if_neg hve]
          exact containsSub_nl_false _ _ _ (by decide) hkAS hvAS
      rw [pySplit_last AS _ hcs]
      simp [partsOf]
    | cons b rest =>
      have hsub : ∀ p ∈ b :: rest, WFArg p.1 p.2 :=
        fun p hp => h p (List.mem_cons_of_mem _ hp)
      rw [show x ++ '\n' :: strippedChunks ((k, v) :: b :: rest) =
          x ++ '\n' :: (AS ++ ('\n' :: (k ++ '\n' :: (v ++ '\n' ::
            strippedChunks (b :: rest))))) from by simp [strippedChunks]]
      rw [pySplit_cons AS x _ (by decide) (by decide) hx]
      have hx' : containsSub AS ('\n' :: (k ++ '\n' :: v)) = false := by
        rw [show ('\n' :: (k ++ '\n' :: v)) = [] ++ '\n' :: (k ++ '\n' :: v) from rfl]
        apply containsSub_nl_false _ _ _ (by decide) (by decide)
        exact containsSub_nl_false _ _ _ (by decide) hkAS hvAS
      rw [show ('\n' :: (k ++ '\n' :: (v ++ '\n' :: strippedChunks (b :: rest)))) =
          ('\n' :: (k ++ '\n' :: v)) ++ '\n' :: strippedChunks (b :: rest) from by simp]
      rw [ih hsub (by simp) _ hx']
      simp [partsOf]

theorem parseArgs_step (part : List Char) (rest : List (List Char))
    (acc : List (List Char × List Char)) (k v : List Char)
    (hblock : pyStrip part = (if v = [] then k else k ++ '\n' :: v))
    (hk0 : k ≠ []) (hknl : '\n' ∉ k) (hk_strip : pyStrip k = k)
    (hv : pyRStrip v = v) :
    parseArgs (part :: rest) acc = parseArgs rest (pyDictInsert acc k v) := by
  by_cases hve : v = []
  · subst hve
    rw [if_pos rfl] at hblock
    conv_lhs => rw [parseArgs]
    rw [hblock, if_neg hk0, takeLine_no_nl k hknl, hk_strip, if_neg hk0,
      dropLine_no_nl k hknl]
  · rw [if_neg hve] at hblock
    have hbne : k ++ '\n' :: v ≠ [] := by simp
    conv_lhs => rw [parseArgs]
    rw [hblock, if_neg hbne, takeLine_append_nl k v hknl, hk_strip, if_neg hk0,
      dropLine_append_nl k v hknl]
    dsimp only
    rw [hv]

theorem parseArgs_partsOf (args : List (List Char × List Char))
    (h : ∀ p ∈ args, WFArg p.1 p.2) (hnodup : (args.map Prod.fst).Nodup) :
    ∀ acc, (∀ p ∈ args, acc.any (·.1 = p.1) = false) →
      parseArgs (partsOf args) acc = acc ++ args := by
  induction args with
  | nil =>
    intro acc _
    simp [partsOf, parseArgs]
  | cons hd tl ih =>
    obtain ⟨k, v⟩ := hd
    intro acc hfresh
    obtain ⟨hk_strip, hk0, hknl, hkAS, hkBC, hv_rstrip, hvAS, hvBC⟩ :=
      h (k, v) (List.mem_cons_self _ _)
    have hfreshk : acc.any (·.1 = k) = false := hfresh (k, v) (List.mem_cons_self _ _)
    have hknotin : k ∉ tl.map Prod.fst := by
      have := hnodup
      rw [List.map_cons, List.nodup_cons] at this
      exact this.1
    have hsub : ∀ p ∈ tl, WFArg p.1 p.2 := fun p hp => h p (List.mem_cons_of_mem _ hp)
    have hnodup' : (tl.map Prod.fst).Nodup := by
      have := hnodup
      rw [List.map_cons, List.nodup_cons] at this
      exact this.2
    cases tl with
    | nil =>
      rw [show partsOf [(k, v)] =
          ['\n' :: (k ++ (if v = [] then [] else '\n' :: v))] from by simp [partsOf]]
      rw [parseArgs_step _ _ _ k v (strip_part_last k v hk_strip hk0 hv_rstrip)
        hk0 hknl hk_strip hv_rstrip]
      rw [pyDictInsert_fresh acc k v hfreshk]
      unfold parseArgs
      rfl
    | cons b rst =>
      rw [show partsOf ((k, v) :: b :: rst) =
          ('\n' :: (k ++ '\n' :: (v ++ ['\n']))) :: partsOf (b :: rst) from by
        simp [partsOf]]
      rw [parseArgs_step _ _ _ k v (strip_part_mid k v hk_strip hk0 hv_rstrip)
        hk0 hknl hk_strip hv_rstrip]
      rw [pyDictInsert_fresh acc k v hfreshk]
      rw [ih hsub hnodup' (acc ++ [(k, v)]) ?hfr]
      · simp
      case hfr =>
        intro p hp
        rw [List.any_append]
        have h1 : acc.any (·.1 = p.1) = false := hfresh p (List.mem_cons_of_mem _ hp)
        have h2 : List.any [(k, v)] (·.1 = p.1) = false := by
          simp only [List.any_cons, List.any_nil, Bool.or_false]
          have : k ≠ p.1 := by
            intro he
            exact hknotin (he ▸ List.mem_map_of_mem Prod.fst hp)
          simpa using this
        rw [h1, h2]
        rfl

end CodecSplit

section CodecMaster

open ResponseParser

/-- The master codec lemma: for any preceding free-form text `P` and any
well-formed call, `parse` anchors on the final markers and recovers the
call exactly; the stripped preceding text becomes the thought. -/
theorem parse_encode (P n : List Char) (args : List (List Char × List Char))
    (hWF : WFCall n args) :
    parse (P ++ encode n args) = .ok ⟨pyStrip P, n, args⟩ := by
  obtain ⟨⟨hn_strip, hn0, hnAS, hnBC⟩, hargs, hnodup⟩ := hWF
  have htext : P ++ encode n args =
      (P ++ (BC ++ ('\n' :: (n ++ '\n' :: chunksOf args)))) ++ EC := by
    simp [encode, chunksOf]
  have hbegin : pyRFind BC ((P ++ (BC ++ ('\n' :: (n ++ '\n' :: chunksOf args)))) ++ EC)
      (P ++ (BC ++ ('\n' :: (n ++ '\n' :: chunksOf args)))).length = some P.length := by
    apply pyRFind_last
    · rw [show (P ++ (BC ++ ('\n' :: (n ++ '\n' :: chunksOf args)))) ++ EC =
          P ++ (BC ++ (('\n' :: (n ++ '\n' :: chunksOf args)) ++ EC)) from by simp,
        List.drop_left]
      exact leadsWith_self_append BC _
    · intro j hj
      cases hl : leadsWith BC (((P ++ (BC ++ ('\n' :: (n ++ '\n' :: chunksOf args))))
          ++ EC).drop j)
      · rfl
      · exfalso
        have hl' : leadsWith BC (((P ++ BC) ++ '\n' ::
            (n ++ '\n' :: (chunksOf args ++ EC))).drop j) = true := by
          rw [show ((P ++ BC) ++ '\n' :: (n ++ '\n' :: (chunksOf args ++ EC)))
              = (P ++ (BC ++ ('\n' :: (n ++ '\n' :: chunksOf args)))) ++ EC from by simp]
          exact hl
        rcases leadsWith_crossing BC (P ++ BC) _ j (by decide) hl' with
          ⟨hle, _⟩ | ⟨hlt, hlY⟩
        · have hbc : BC.length = 27 := by decide
          simp only [List.length_append] at hle
          omega
        · have hy : containsSub BC (n ++ '\n' :: (chunksOf args ++ EC)) = false :=
            containsSub_nl_false _ _ _ (by decide) hnBC (chunksOf_no_BC args hargs)
          rw [containsSub_false_no_leads _ _ hy _] at hlY
          cases hlY
    · simp only [List.length_append, List.length_cons]
      omega
  unfold parse
  rw [htext]
  simp only [pyRFind_append_self, hbegin]
  rw [show ((P ++ (BC ++ ('\n' :: (n ++ '\n' :: chunksOf args)))) ++ EC).take P.length
      = P from by
    rw [show (P ++ (BC ++ ('\n' :: (n ++ '\n' :: chunksOf args)))) ++ EC =
        P ++ ((BC ++ ('\n' :: (n ++ '\n' :: chunksOf args))) ++ EC) from by simp]
    exact List.take_left P _]
  rw [List.take_left]
  rw [show P.length + BC.length = (P ++ BC).length from (List.length_append P BC).symm]
  rw [show P ++ (BC ++ ('\n' :: (n ++ '\n' :: chunksOf args))) =
      (P ++ BC) ++ ('\n' :: (n ++ '\n' :: chunksOf args)) from by simp]
  rw [List.drop_left]
  by_cases hae : args = []
  · subst hae
    rw [show ('\n' :: (n ++ '\n' :: chunksOf [])) = '\n' :: (n ++ ['\n']) from by
      simp [chunksOf]]
    rw [strip_body_noargs n hn_strip hn0]
    rw [pySplit_last AS n hnAS]
    dsimp only
    rw [hn_strip, if_neg hn0]
    rfl
  · rw [strip_body_args n args hn_strip hn0 hargs hae]
    rw [split_stripped args hargs hae n hnAS]
    dsimp only
    rw [strip_name_part n hn_strip hn0, if_neg hn0]
    rw [parseArgs_partsOf args hargs hnodup [] (fun p _ => rfl)]
    rw [List.nil_append]

end CodecMaster

/-! ## Claims about the response codec -/

section CodecClaims

open ResponseParser

/-- **C2**: on input holding two well-formed rendered calls, `parse` anchors
on the last end marker and the last begin marker before it, returning the
name and argument mapping of the second call only, with everything before
that begin marker (stripped) as the thought — whatever text surrounds and
separates the two calls. -/
theorem c2_last_call_anchoring (t1 t2 n1 n2 : List Char)
    (a1 a2 : List (List Char × List Char))
    (_h1 : WFCall n1 a1) (h2 : WFCall n2 a2) :
    parse (t1 ++ encode n1 a1 ++ t2 ++ encode n2 a2) =
      .ok ⟨pyStrip (t1 ++ encode n1 a1 ++ t2), n2, a2⟩ :=
  parse_encode (t1 ++ encode n1 a1 ++ t2) n2 a2 h2

/-- Witness for C2: a reasoning prefix containing stray marker-like text,
a first call, interleaved text, and a second call. -/
theorem c2_last_call_anchoring_witness :
    WFCall "run_bash_cmd".toList [("command".toList, "ls -la".toList)] ∧
    WFCall "finish".toList [("result".toList, "ok".toList)] ∧
    parse ("noise ----END_FUNCTION_CALL---- noise\n".toList ++
        encode "run_bash_cmd".toList [("command".toList, "ls -la".toList)] ++
        "\nmore thoughts\n".toList ++
        encode "finish".toList [("result".toList, "ok".toList)]) =
      .ok ⟨pyStrip ("noise ----END_FUNCTION_CALL---- noise\n".toList ++
        encode "run_bash_cmd".toList [("command".toList, "ls -la".toList)] ++
        "\nmore thoughts\n".toList), "finish".toList, [("result".toList, "ok".toList)]⟩ :=
  ⟨by decide, by decide,
   c2_last_call_anchoring _ _ _ _ _ _ (by decide) (by decide)⟩

/-- **C3 counterexample**: a value containing the argument separator as a
substring (but not as a full line, which is all the claim excludes) breaks
the round trip: the rendered call for `f` with `x = "a----ARG----b"` decodes
to the arguments `x = "a"` and `b = ""`. -/
theorem c3_roundtrip_counterexample :
    parse (encode "f".toList [("x".toList, "a----ARG----b".toList)]) =
      .ok ⟨[], "f".toList, [("x".toList, "a".toList), ("b".toList, [])]⟩ ∧
    [("x".toList, "a".toList), ("b".toList, [])] ≠
      [("x".toList, "a----ARG----b".toList)] :=
  ⟨by rfl, by decide⟩

/-- **C3 amended**: the codec round-trips exactly for every call that is
well-formed in the sense of `WFCall`: the name is nonempty, strip-invariant
and contains neither the separator nor the begin marker anywhere; each
argument name is additionally newline-free; each argument value is
rstrip-invariant and contains neither the separator nor the begin marker
anywhere (values may contain embedded newlines, and even the end marker);
and argument names are distinct. -/
theorem c3_roundtrip_amended (n : List Char) (args : List (List Char × List Char))
    (hWF : WFCall n args) :
    parse (encode n args) = .ok ⟨[], n, args⟩ := by
  have := parse_encode [] n args hWF
  simpa using this

/-- Witness for the amended C3: a call with a multiline, indented value. -/
theorem c3_roundtrip_amended_witness :
    WFCall "run_bash_cmd".toList
      [("command".toList, "ls -la".toList),
       ("note".toList, "  indented\n  lines".toList)] ∧
    parse (encode "run_bash_cmd".toList
      [("command".toList, "ls -la".toList),
       ("note".toList, "  indented\n  lines".toList)]) =
      .ok ⟨[], "run_bash_cmd".toList,
        [("command".toList, "ls -la".toList),
         ("note".toList, "  indented\n  lines".toList)]⟩ :=
  ⟨by decide, c3_roundtrip_amended _ _ (by decide)⟩

/-- **C10**: an argument segment holding a non-blank name with nothing after
it (no line break, no value lines: the name sits directly before the end
marker) does not make `parse` fail; the name is mapped to the empty string.
The `containsSub BC (k ++ EC) = false` hypothesis rules out an occurrence of
the begin marker straddling the boundary between the name and the end
marker. -/
theorem c10_argument_name_without_value (n k : List Char)
    (hn : pyStrip n = n) (hn0 : n ≠ []) (hnAS : containsSub AS n = false)
    (hnBC : containsSub BC n = false)
    (hk : pyStrip k = k) (hk0 : k ≠ []) (hknl : '\n' ∉ k)
    (hkAS : containsSub AS k = false)
    (hkTailBC : containsSub BC (k ++ EC) = false) :
    parse (BC ++ '\n' :: (n ++ '\n' :: (AS ++ '\n' :: k)) ++ EC) =
      .ok ⟨[], n, [(k, [])]⟩ := by
  obtain ⟨hkl, hkr⟩ := lstrip_rstrip_of_strip k hk
  have hbegin : pyRFind BC ((BC ++ ('\n' :: (n ++ '\n' :: (AS ++ '\n' :: k)))) ++ EC)
      (BC ++ ('\n' :: (n ++ '\n' :: (AS ++ '\n' :: k)))).length = some 0 := by
    apply pyRFind_last
    · rw [List.drop_zero,
        show (BC ++ ('\n' :: (n ++ '\n' :: (AS ++ '\n' :: k)))) ++ EC =
          BC ++ (('\n' :: (n ++ '\n' :: (AS ++ '\n' :: k))) ++ EC) from by simp]
      exact leadsWith_self_append BC _
    · intro j hj
      cases hl : leadsWith BC (((BC ++ ('\n' :: (n ++ '\n' :: (AS ++ '\n' :: k))))
          ++ EC).drop j)
      · rfl
      · exfalso
        have hl' : leadsWith BC ((BC ++ '\n' ::
            (n ++ '\n' :: (AS ++ '\n' :: (k ++ EC)))).drop j) = true := by
          rw [show BC ++ '\n' :: (n ++ '\n' :: (AS ++ '\n' :: (k ++ EC))) =
              (BC ++ ('\n' :: (n ++ '\n' :: (AS ++ '\n' :: k)))) ++ EC from by simp]
          exact hl
        rcases leadsWith_crossing BC BC _ j (by decide) hl' with
          ⟨hle, _⟩ | ⟨hlt, hlY⟩
        · have hbc : BC.length = 27 := by decide
          omega
        · have hy : containsSub BC (n ++ '\n' :: (AS ++ '\n' :: (k ++ EC)))
              = false := by
            apply containsSub_nl_false _ _ _ (by decide) hnBC
            exact containsSub_nl_false _ _ _ (by decide) (by decide) hkTailBC
          rw [containsSub_false_no_leads _ _ hy _] at hlY
          cases hlY
    · simp
  have hcore : pyStrip (n ++ '\n' :: (AS ++ '\n' :: k)) =
      n ++ '\n' :: (AS ++ '\n' :: k) := by
    obtain ⟨hnl', hnr⟩ := lstrip_rstrip_of_strip n hn
    unfold pyStrip
    rw [lstrip_append_of_self n _ hnl' hn0]
    rw [show n ++ '\n' :: (AS ++ '\n' :: k) = (n ++ '\n' :: (AS ++ ['\n'])) ++ k
      from by simp]
    rw [rstrip_append_of_self _ k hkr hk0]
  have hbodystrip : pyStrip ('\n' :: ((n ++ '\n' :: (AS ++ '\n' :: k)) ++ [])) =
      n ++ '\n' :: (AS ++ '\n' :: k) :=
    strip_wrap _ [] hcore (by simp [hn0]) (by simp)
  have hblock : pyStrip ('\n' :: k) = (if ([] : List Char) = [] then k
      else k ++ '\n' :: []) := by
    rw [if_pos rfl]
    have := strip_wrap k [] hk hk0 (by simp)
    simpa using this
  have hlastAS : containsSub AS ('\n' :: k) = false := by
    rw [show ('\n' :: k) = [] ++ '\n' :: k from rfl]
    exact containsSub_nl_false _ _ _ (by decide) (by decide) hkAS
  unfold parse
  simp only [pyRFind_append_self, hbegin]
  rw [List.take_zero, List.take_left]
  simp only [Nat.zero_add]
  rw [List.drop_left]
  rw [show pyStrip ('\n' :: (n ++ '\n' :: (AS ++ '\n' :: k))) =
      n ++ '\n' :: (AS ++ '\n' :: k) from by simpa using hbodystrip]
  rw [pySplit_cons AS n ('\n' :: k) (by decide) (by decide) hnAS]
  rw [pySplit_last AS ('\n' :: k) hlastAS]
  dsimp only
  rw [strip_name_part n hn hn0, if_neg hn0]
  rw [parseArgs_step ('\n' :: k) [] [] k [] hblock hk0 hknl hk rfl]
  rw [pyDictInsert_fresh [] k [] rfl]
  rfl

/-- Witness for C10 at a concrete name-only argument segment. -/
theorem c10_argument_name_without_value_witness :
    (pyStrip "verbose".toList = "verbose".toList ∧ "verbose".toList ≠ [] ∧
      containsSub AS "verbose".toList = false ∧
      containsSub BC ("verbose".toList ++ EC) = false) ∧
    parse (BC ++ '\n' :: ("run".toList ++ '\n' :: (AS ++ '\n' :: "verbose".toList))
        ++ EC) = .ok ⟨[], "run".toList, [("verbose".toList, [])]⟩ :=
  ⟨⟨by decide, by decide, by decide, by decide⟩,
   c10_argument_name_without_value "run".toList "verbose".toList (by decide) (by decide)
     (by decide) (by decide) (by decide) (by decide) (by decide) (by decide)
     (by decide)⟩

end CodecClaims
